import Mathlib

/-!
Verification of the twitter-customer-support collector against its design
specification.  The Python sources (`main.py`, `db.py`, `fetch.py`) are
shallowly embedded below: the postgres tables become lists of rows, the
twitter API becomes an oracle of responses, Python strings become lists of
code points, SQL timestamps and numerics become rationals, and the
`TwitterError` / `psycopg2.DataError` exceptions become explicit result
values.
-/

namespace TwitterCS

/-- A Python string, as a list of unicode code points.  Screen names and
other strings the code manipulates character-wise are embedded this way. -/
abbrev SN := List Nat

/-- Python str.lower restricted to the ASCII range (the range exercised by the
code's screen-name handling): maps `A`..`Z` (65..90) to `a`..`z`. -/
def pyLower (c : Nat) : Nat := if 65 ≤ c ∧ c ≤ 90 then c + 32 else c

/-- Python s.lower(). -/
def lowerStr (s : SN) : SN := s.map pyLower

/-- Python s.strip of the at-sign: removes leading and trailing at-sign
characters (code point 64) from both ends. -/
def stripAt (s : SN) : SN :=
  (((s.dropWhile fun c => decide (c = 64)).reverse.dropWhile fun c => decide (c = 64)).reverse)

/-- The normalization main.py applies to every
configured screen name (line 28, strip the at-signs then lowercase) and
again per account (line 34). -/
def pyNormalize (s : SN) : SN := lowerStr (stripAt s)

/-- A twitter `User` object, as carried inside a fetched `Status`.
`badData` models a payload whose record raises psycopg2 DataError
when inserted (e.g. invalid characters). -/
structure TUser where
  id : Nat
  screen_name : SN
  badData : Bool
  deriving DecidableEq

/-- A twitter `Status` (tweet) as returned by the API.  The stored `data`
jsonb payload is modelled as the `Status` itself.  `truncated` models the
truncated field of the payload; `truncMarkerInText` models a text body that
matches the textual truncation-marker pattern; `badData` models a payload
whose record raises psycopg2 DataError on insert. -/
structure Status where
  id : Nat
  user : TUser
  created_at : ℚ
  truncated : Bool
  truncMarkerInText : Bool
  in_reply_to_status_id : Option Nat
  badData : Bool
  deriving DecidableEq

/-- A row of the `tweets` table: `(status_id, created_at, data)`. -/
structure TweetRow where
  status_id : Nat
  created_at : ℚ
  data : Status
  deriving DecidableEq

/-- A row of the `users` table: `(user_id, data)`. -/
structure UserRow where
  user_id : Nat
  data : TUser
  deriving DecidableEq

/-- The kind column of the `requests` table: which fetch phase wrote the
audit row (get_replies from `fetch_replies_from_user`, get_ats from
`fetch_tweets_at_user`). -/
inductive ReqKind
  | get_replies
  | get_ats
  deriving DecidableEq

/-- A row of the `requests` audit table: `(screen_name, kind, created_at)`,
`created_at` filled by the database at insert time. -/
structure RequestRow where
  screen_name : SN
  kind : ReqKind
  created_at : ℚ
  deriving DecidableEq

/-- The durable store: the four postgres tables owned by the system. -/
structure Db where
  tweets : List TweetRow
  users : List UserRow
  requests : List RequestRow
  inaccessible : List Nat
  deriving DecidableEq

def emptyDb : Db := ⟨[], [], [], []⟩

/-- Embedding of toolz.unique with a key function: keeps the first occurrence of each key, in
order of first occurrence. -/
def uniqueBy {α β : Type} [DecidableEq β] (key : α → β) : List α → List α
  | [] => []
  | x :: xs => x :: (uniqueBy key xs).filter fun y => decide (key y ≠ key x)

/-- Membership test on a tweets table: does some row carry this id. -/
def tblHasId (tbl : List TweetRow) (i : Nat) : Bool :=
  tbl.any fun r => decide (r.status_id = i)

/-- Membership test used by get_existing_tweet_ids: whether a tweet id is
already present in the store. -/
def tweetIdExists (db : Db) (i : Nat) : Bool := tblHasId db.tweets i

/-- Number of rows of a tweets table carrying a given id. -/
def countId (tbl : List TweetRow) (i : Nat) : Nat :=
  (tbl.filter fun r => decide (r.status_id = i)).length

def userIdExists (db : Db) (i : Nat) : Bool :=
  db.users.any fun r => decide (r.user_id = i)

/-- One row of the users insert with the ignore-on-conflict policy. -/
def insertUserIgnore (db : Db) (u : TUser) : Db :=
  if userIdExists db u.id then db
  else { db with users := db.users ++ [⟨u.id, u⟩] }

/-- Embedding of db.save_users: dedupe by user id (toolz.unique), then
batch-insert with the ignore-on-conflict policy.  If the batch statement
fails with DataError (some record is malformed), the transaction is rolled
back and the per-record fallback loop starts — but that loop re-issues the
multi-row VALUES template through plain cursor.execute with a two-element
parameter tuple, which raises a TypeError (placeholder/parameter mismatch)
on its very first record, before any SQL reaches the database.  The
TypeError is not caught by the except-DataError handler, so the fallback
persists nothing and logs no per-record discard: the call leaves the store
unchanged and the exception propagates (flag `false`). -/
def saveUsers (db : Db) (users : List TUser) : Db × Bool :=
  let uniq := uniqueBy TUser.id users
  if uniq.any fun u => u.badData then
    (db, false)
  else
    (uniq.foldl insertUserIgnore db, true)

/-- Embedding of tweet_to_record: a tweets-table row for a fetched status. -/
def tweetToRecord (t : Status) : TweetRow := ⟨t.id, t.created_at, t⟩

/-- Replace the (unique) existing row carrying this status id with the new
record: the update branch of the overwrite-on-conflict policy. -/
def replaceFirstTweet : List TweetRow → TweetRow → List TweetRow
  | [], _ => []
  | r :: rs, nr =>
      if r.status_id = nr.status_id then nr :: rs else r :: replaceFirstTweet rs nr

/-- One row of the tweets insert, under the selected conflict policy:
`overwrite = false` ignores a conflicting row, `overwrite = true` replaces
the conflicting row with the new data. -/
def insertTweet (overwrite : Bool) (tbl : List TweetRow) (r : TweetRow) : List TweetRow :=
  if tblHasId tbl r.status_id then
    if overwrite then replaceFirstTweet tbl r else tbl
  else tbl ++ [r]

/-- Embedding of db.save_tweets: first saves the tweets' authors
(`save_users`, which commits on success); an exception escaping the user
upsert propagates and aborts the call with the store unchanged.  Otherwise
dedupe the batch by `tweet.id` and batch-insert the records under the
selected conflict policy.  There is no DataError fallback here: a
malformed record fails the whole tweets statement, so the tweets table is
left unchanged (the committed authors remain) and the exception propagates
(returned flag `false`). -/
def saveTweets (db : Db) (tweets : List Status) (overwrite : Bool) : Db × Bool :=
  let ures := saveUsers db (tweets.map fun t => t.user)
  if ures.2 then
    let records := (uniqueBy Status.id tweets).map tweetToRecord
    if records.any fun r => r.data.badData then
      (ures.1, false)
    else
      ({ ures.1 with tweets := records.foldl (insertTweet overwrite) ures.1.tweets }, true)
  else (ures.1, false)

/-- Embedding of db.save_request: append one audit row; `created_at` is the database
insert time, threaded here as `now`. -/
def saveRequest (now : ℚ) (db : Db) (sn : SN) (k : ReqKind) : Db :=
  { db with requests := db.requests ++ [⟨sn, k, now⟩] }

/-- The 1999-01-01 default timestamp returned by last_scraped_at when the
screen name has no audit row. -/
def dt1999 : ℚ := 915148800

/-- Embedding of db.last_scraped_at: latest created_at among the screen
name's audit rows, defaulting to 1999-01-01. -/
def lastScrapedAt (db : Db) (sn : SN) : ℚ :=
  match ((db.requests.filter fun r => decide (r.screen_name = sn)).map
      fun r => r.created_at).max? with
  | none => dt1999
  | some t => t

/-- The upstream twitter API, as an oracle of responses.  A `.error` value
is a raised `TwitterError`.  What the API returns for a given screen name
is fixed by the oracle, so "the same unchanged upstream response set" is an
oracle shared between runs. -/
structure FetchOracle where
  replies : SN → Except Unit (List Status)
  ats : SN → Except Unit (List Status)
  byId : List Nat → Except Unit (List Status)

/-- One entry of the run's instrumentation trace: a fetch phase attempted
for a (cleaned) screen name, and whether the upstream call succeeded. -/
structure TraceEv where
  name : SN
  kind : ReqKind
  ok : Bool
  deriving DecidableEq

/-- One fetch phase of the per-account loop in `main` (lines 38-50 resp.
52-63): on upstream success, drop the tweets whose ids already exist, save
the audit row, then save the new tweets; a `TwitterError` is caught and
logged (trace `ok := false`) and the phase is skipped.  A DataError (or
the user-fallback TypeError) escaping `save_tweets` is not caught and
crashes the run (`.error`). -/
def phaseStep (now : ℚ) (db : Db) (clean : SN) (k : ReqKind)
    (resp : Except Unit (List Status)) : Except Unit (Db × TraceEv) :=
  match resp with
  | .error _ => .ok (db, ⟨clean, k, false⟩)
  | .ok tweets =>
      let newTweets := tweets.filter fun t => !tweetIdExists db t.id
      let db1 := saveRequest now db clean k
      let res := saveTweets db1 newTweets false
      if res.2 then .ok (res.1, ⟨clean, k, true⟩) else .error ()

/-- The per-account body of the orchestrator loop (`main` lines 33-65):
re-normalize the screen name, look up its last scrape time (passed upstream
as the `since` bound of the mentions fetch), then run the replies phase
followed by the mentions phase. -/
def processAccount (o : FetchOracle) (now : ℚ) (db : Db) (sn : SN) :
    Except Unit (Db × List TraceEv) :=
  let clean := pyNormalize sn
  let _since := lastScrapedAt db clean
  match phaseStep now db clean .get_replies (o.replies clean) with
  | .error e => .error e
  | .ok (db1, e1) =>
      match phaseStep now db1 clean .get_ats (o.ats clean) with
      | .error e => .error e
      | .ok (db2, e2) => .ok (db2, [e1, e2])

/-- The orchestrator loop over the selected screen names. -/
def collectAccounts (o : FetchOracle) (now : ℚ) (db : Db) :
    List SN → Except Unit (Db × List TraceEv)
  | [] => .ok (db, [])
  | sn :: rest =>
      match processAccount o now db sn with
      | .error e => .error e
      | .ok (db1, evs) =>
          match collectAccounts o now db1 rest with
          | .error e => .error e
          | .ok (db2, evs2) => .ok (db2, evs ++ evs2)

/-- The Collection Orchestrator (`main` lines 30-65): given the ranked
screen-name list, apply the quota (`[:API_LIMIT]`) and process each
selected account in order. -/
def runCollection (o : FetchOracle) (now : ℚ) (quota : Nat) (ranked : List SN)
    (db : Db) : Except Unit (Db × List TraceEv) :=
  collectAccounts o now db (ranked.take quota)

/-- Embedding of db.get_orphaned_tweets: parent ids of recent replies whose
parent is not stored (anti-join on the payload id) and not already marked
inaccessible, capped at 25000 rows. -/
def getOrphanedTweets (now : ℚ) (db : Db) : List Nat :=
  ((db.tweets.filter fun r =>
      (match r.data.in_reply_to_status_id with
        | none => false
        | some p =>
            (!db.tweets.any fun q => decide (q.data.id = p)) &&
            (!db.inaccessible.any fun m => decide (m = p)) &&
            decide (now - 86400 < r.created_at))).map
    fun r => r.data.in_reply_to_status_id.getD 0).take 25000

/-- Embedding of db.save_inaccessible_tweet_ids: append the confirmed-unretrievable
ids to the `inaccessible_tweets` table. -/
def saveInaccessible (db : Db) (ids : List Nat) : Db :=
  { db with inaccessible := db.inaccessible ++ ids }

/-- One orphan-resolver batch (`main` lines 71-78): look the batch up,
record as inaccessible every id the lookup did not return, then save the
returned tweets. -/
def orphanBatchStep (db : Db) (ids : List Nat) (resp : List Status) : Db × Bool :=
  let inacc := ids.filter fun i => !resp.any fun t => decide (t.id = i)
  saveTweets (saveInaccessible db inacc) resp false

/-- Embedding of db.get_truncated_tweets: ids of stored tweets whose
payload is flagged truncated or whose text carries the truncation marker. -/
def getTruncatedTweets (db : Db) : List Nat :=
  (db.tweets.filter fun r => r.data.truncated || r.data.truncMarkerInText).map
    fun r => r.status_id

/-- Embedding of db.delete_tweets: remove the rows with these ids. -/
def deleteTweets (db : Db) (ids : List Nat) : Db :=
  { db with tweets := db.tweets.filter fun r => !ids.any fun i => decide (i = r.status_id) }

/-- One truncation-repair batch (`main` lines 85-97): re-fetch the batch,
hard-delete the ids the re-fetch did not return, then save the returned
tweets with the overwrite-on-conflict policy. -/
def truncateBatchStep (db : Db) (ids : List Nat) (resp : List Status) : Db × Bool :=
  let missing := ids.filter fun i => !resp.any fun t => decide (t.id = i)
  let db1 := if missing.isEmpty then db else deleteTweets db missing
  if resp.isEmpty then (db1, true) else saveTweets db1 resp true

/-- First stored row carrying a given tweet id. -/
def findTweet (db : Db) (i : Nat) : Option TweetRow :=
  db.tweets.find? fun r => decide (r.status_id = i)

/-! ### The Priority Scorer, db.prioritize_by_uncollected -/

/-- The trailing one-week window restriction of the daily_counts CTE. -/
def windowTweets (now : ℚ) (db : Db) : List TweetRow :=
  db.tweets.filter fun r => decide (now - 7 * 86400 < r.created_at)

/-- The daily_counts group key: the lowercased screen name of the payload
author. -/
def dailyKey (r : TweetRow) : SN := lowerStr r.data.user.screen_name

/-- The daily_counts CTE row for one (lowered) screen name: the pair of
tweet_period and tweet_count over the trailing-week window, or NULL
(`none`) when the account has no tweet in the window. -/
def dailyCountFor (now : ℚ) (db : Db) (k : SN) : Option (ℚ × ℚ) :=
  let g := (windowTweets now db).filter fun r => decide (dailyKey r = k)
  if g.isEmpty then none
  else
    some ((((g.map fun r => r.created_at).max?.getD 0
            - (g.map fun r => r.created_at).min?.getD 0) / 86400),
          (g.length : ℚ))

/-- The max_request CTE: the latest audit-row timestamp of the store. -/
def maxRequestAt (db : Db) : Option ℚ := (db.requests.map fun r => r.created_at).max?

/-- The distinct screen names of the `requests` table, in order of first
appearance (the grouping of the last_scrapes CTE). -/
def requestSNs (db : Db) : List SN := uniqueBy (fun s => s) (db.requests.map fun r => r.screen_name)

/-- One joined output row of the priority query: a screen name with fetch
history and its `missing_tweets` weight (`NULL` when the account has no
tweet inside the trailing window). -/
structure ScoreRow where
  sn : SN
  weight : Option ℚ
  deriving DecidableEq

/-- The joined (unsorted) rows of the priority query: per screen name,
scrape_age is the epoch gap in days between the global latest audit row and
the account's latest audit row, and the missing_tweets weight is
abs(scrape_age * tweet_count / (tweet_period + 0.0001)), NULL when the
right join finds no daily_counts row. -/
def scoreRows (now : ℚ) (db : Db) : List ScoreRow :=
  match maxRequestAt db with
  | none => []
  | some m =>
      (requestSNs db).map fun sn =>
        let age := (m - ((db.requests.filter fun r => decide (r.screen_name = sn)).map
            fun r => r.created_at).max?.getD 0) / 86400
        ⟨sn,
          match dailyCountFor now db sn with
          | none => none
          | some pc => some |age * pc.2 / (pc.1 + 1 / 10000)|⟩

/-- The descending order on weights: row `a` may precede row `b`.  Postgres
sorts NULL first under a descending order, so a NULL weight precedes
everything; otherwise the larger weight precedes. -/
def scoreBefore (a b : ScoreRow) : Prop :=
  match a.weight, b.weight with
  | none, _ => True
  | some _, none => False
  | some x, some y => y ≤ x

instance : DecidableRel scoreBefore := fun a b =>
  match a, b with
  | ⟨_, none⟩, _ => isTrue trivial
  | ⟨_, some _⟩, ⟨_, none⟩ => isFalse fun h => h
  | ⟨_, some x⟩, ⟨_, some y⟩ => inferInstanceAs (Decidable (y ≤ x))

/-- The priortized_sns list: output rows of the priority query in
weight-descending order, projected to screen names. -/
def scoredNames (now : ℚ) (db : Db) : List SN :=
  ((scoreRows now db).insertionSort scoreBefore).map fun r => r.sn

/-- Embedding of db.prioritize_by_uncollected: screen names missing from
the query result (found_sns) are placed first, in input order, followed by
the scored names. -/
def prioritizeByUncollected (now : ℚ) (db : Db) (screenNames : List SN) : List SN :=
  (screenNames.filter fun sn => !(scoredNames now db).any fun t => decide (t = sn))
    ++ scoredNames now db

/-- Modelled from the spec (§4.1, claim C4), for comparison with the code:
priority weight `scrape_age * daily_rate` where `daily_rate` (messages per
day over the trailing window) is clamped to a floor of 1.0. -/
def specPriorityWeight (scrapeAge dailyRate : ℚ) : ℚ :=
  scrapeAge * max dailyRate 1

/-- Whether an upstream response is a success (no TwitterError raised). -/
def phaseOkB : Except Unit (List Status) → Bool
  | .ok _ => true
  | .error _ => false

/-- An upstream response is clean when none of its statuses — neither the
tweet record nor its author record — would raise a DataError on insert (a
failed response is vacuously clean). -/
def respClean : Except Unit (List Status) → Prop
  | .error _ => True
  | .ok ts => ∀ t ∈ ts, t.badData = false ∧ t.user.badData = false

/-- Both of an account's phase responses are clean. -/
def accountClean (o : FetchOracle) (sn : SN) : Prop :=
  respClean (o.replies (pyNormalize sn)) ∧ respClean (o.ats (pyNormalize sn))

/-- Every status of a successful response is already stored. -/
def respCovered (db : Db) : Except Unit (List Status) → Prop
  | .error _ => True
  | .ok ts => ∀ t ∈ ts, tweetIdExists db t.id = true

/-- Both of an account's phase responses are already stored. -/
def accountCovered (o : FetchOracle) (db : Db) (sn : SN) : Prop :=
  respCovered db (o.replies (pyNormalize sn)) ∧ respCovered db (o.ats (pyNormalize sn))

instance : IsTotal ScoreRow scoreBefore :=
  ⟨fun a b => by
    rcases a with ⟨sa, _ | wa⟩ <;> rcases b with ⟨sb, _ | wb⟩ <;>
      simp only [scoreBefore] <;> try trivial
    exact (le_total wb wa).imp id id⟩

instance : IsTrans ScoreRow scoreBefore :=
  ⟨fun a b c hab hbc => by
    rcases a with ⟨sa, _ | wa⟩ <;> rcases b with ⟨sb, _ | wb⟩ <;> rcases c with ⟨sc, _ | wc⟩ <;>
      simp only [scoreBefore] at * <;> try trivial
    exact le_trans hbc hab⟩

/-! ### Concrete data used by the counterexamples and witnesses -/

def dayQ : ℚ := 86400

def uX : TUser := ⟨100, [120], false⟩
def uY : TUser := ⟨101, [121], false⟩
def uZ : TUser := ⟨102, [122], false⟩

/-- A stored tweet row authored by `u` at time `t`. -/
def mkTw (i : Nat) (u : TUser) (t : ℚ) : TweetRow :=
  ⟨i, t, ⟨i, u, t, false, false, none, false⟩⟩

/-- Store for the C4 counterexample.  Accounts x, y, z (code points 120,
121, 122) were last fetched 10, 3 and 0 days before the latest audit row;
inside the trailing week x has 2 tweets 5 days apart, y has 2 tweets 1 day
apart, z has 2 tweets half a day apart. -/
def exDb4 : Db :=
  { tweets := [mkTw 1 uX (4 * dayQ), mkTw 2 uX (9 * dayQ),
               mkTw 3 uY (8 * dayQ), mkTw 4 uY (9 * dayQ),
               mkTw 5 uZ (9 * dayQ), mkTw 6 uZ (19 * dayQ / 2)],
    users := [],
    requests := [⟨[120], .get_replies, 0⟩, ⟨[121], .get_replies, 7 * dayQ⟩,
                 ⟨[122], .get_replies, 10 * dayQ⟩],
    inaccessible := [] }

def exNow4 : ℚ := 21 * dayQ / 2

/-- Store for the C5 counterexample: one audit row for account a (code
point 97) and no tweets, so a is scored (with NULL weight) and any other
configured name is unscored. -/
def exDb5 : Db := { tweets := [], users := [], requests := [⟨[97], .get_replies, 0⟩],
                    inaccessible := [] }

/-- Two users sharing an id but differing in payload (C8). -/
def u7a : TUser := ⟨7, [97], false⟩
def u7b : TUser := ⟨7, [98], false⟩

def uG : TUser := ⟨1, [103], false⟩

/-- A well-formed status (C9). -/
def stG : Status := ⟨11, uG, 0, false, false, none, false⟩

/-- A malformed status whose record raises DataError (C9). -/
def stB : Status := ⟨12, uG, 0, false, false, none, true⟩

/-- A malformed user whose record raises DataError (C9 witness). -/
def badU : TUser := ⟨5, [104], true⟩

/-- Store for the C6 witness: a reply (id 20) to the missing parent 9,
which is already marked inaccessible. -/
def exDb6 : Db :=
  { tweets := [⟨20, 0, ⟨20, uG, 0, false, false, some 9, false⟩⟩],
    users := [], requests := [], inaccessible := [9] }

/-- Truncated stored statuses for the C7 witness. -/
def st30 : Status := ⟨30, uG, 0, true, false, none, false⟩
def st31 : Status := ⟨31, uG, 0, true, false, none, false⟩

/-- The full re-fetched body of status 31 (C7). -/
def st31full : Status := ⟨31, uG, 0, false, false, none, false⟩

def exDb7 : Db :=
  { tweets := [⟨30, 0, st30⟩, ⟨31, 0, st31⟩], users := [], requests := [], inaccessible := [] }

def uW : TUser := ⟨200, [97], false⟩

/-- The one status the witness oracle returns for account a (C1, C3). -/
def stW : Status := ⟨41, uW, 5, false, false, none, false⟩

/-- Witness oracle: the replies fetch of account a returns one status,
every other fetch returns nothing, nothing fails. -/
def exO1 : FetchOracle :=
  { replies := fun sn => if sn = [97] then .ok [stW] else .ok []
    ats := fun _ => .ok []
    byId := fun _ => .ok [] }

/-- The store produced by running the orchestrator once from an empty
store over account a with oracle `exO1`. -/
def exDb1after : Db :=
  { tweets := [⟨41, 5, stW⟩], users := [⟨200, uW⟩],
    requests := [⟨[97], .get_replies, 0⟩, ⟨[97], .get_ats, 0⟩], inaccessible := [] }

/-- Witness oracle with a failing phase: the replies fetch of account a
raises TwitterError, everything else succeeds with no results. -/
def exO2 : FetchOracle :=
  { replies := fun sn => if sn = [97] then .error () else .ok []
    ats := fun _ => .ok []
    byId := fun _ => .ok [] }

/-- Store already holding the status `exO1` returns, so a run fetches only
already-stored tweets (C3 witness: the audit row is still written). -/
def exDbC3 : Db :=
  { tweets := [⟨41, 5, stW⟩], users := [⟨200, uW⟩], requests := [], inaccessible := [] }



end TwitterCS

namespace TwitterCS

/-! ### Helper lemmas about the store primitives -/

theorem mem_of_mem_uniqueBy {α β : Type} [DecidableEq β] (key : α → β) (l : List α) (x : α)
    (h : x ∈ uniqueBy key l) : x ∈ l := by
  induction l with
  | nil => simpa [uniqueBy] using h
  | cons a l ih =>
      simp only [uniqueBy, List.mem_cons] at h
      rcases h with h | h
      · exact List.mem_cons.2 (Or.inl h)
      · exact List.mem_cons.2 (Or.inr (ih (List.mem_of_mem_filter h)))

theorem exists_uniqueBy_key {α β : Type} [DecidableEq β] (key : α → β) (l : List α) (x : α)
    (h : x ∈ l) : ∃ y ∈ uniqueBy key l, key y = key x := by
  induction l with
  | nil => cases h
  | cons a l ih =>
      rcases List.mem_cons.1 h with rfl | h
      · exact ⟨x, by simp [uniqueBy], rfl⟩
      · rcases ih h with ⟨y, hy, hk⟩
        by_cases hya : key y = key a
        · exact ⟨a, by simp [uniqueBy], by rw [← hya, hk]⟩
        · refine ⟨y, ?_, hk⟩
          simp only [uniqueBy, List.mem_cons]
          exact Or.inr (List.mem_filter.2 ⟨hy, by simpa using hya⟩)

theorem uniqueBy_pairwise {α β : Type} [DecidableEq β] (key : α → β) (l : List α) :
    (uniqueBy key l).Pairwise (fun a b => key a ≠ key b) := by
  induction l with
  | nil => simp [uniqueBy]
  | cons a l ih =>
      simp only [uniqueBy]
      refine List.Pairwise.cons ?_ (ih.filter _)
      intro y hy
      have hthis := (List.mem_filter.1 hy).2
      simp only [decide_eq_true_eq] at hthis
      exact fun h => hthis h.symm

theorem find?_filter_of_imp {α : Type} (l : List α) (p q : α → Bool)
    (himp : ∀ x, p x = true → q x = true) :
    (l.filter q).find? p = l.find? p := by
  induction l with
  | nil => rfl
  | cons a l ih =>
      by_cases hq : q a = true
      · rw [List.filter_cons_of_pos hq]
        by_cases hp : p a = true
        · rw [List.find?_cons_of_pos _ hp, List.find?_cons_of_pos _ hp]
        · rw [List.find?_cons_of_neg _ (by simpa using hp),
              List.find?_cons_of_neg _ (by simpa using hp), ih]
      · have hp : ¬ p a = true := fun h => hq (himp a h)
        rw [List.filter_cons_of_neg (by simpa using hq), ih,
            List.find?_cons_of_neg _ (by simpa using hp)]

theorem uniqueBy_find? {α β : Type} [DecidableEq β] (key : α → β) (l : List α) (c : β) :
    (uniqueBy key l).find? (fun y => decide (key y = c))
      = l.find? fun y => decide (key y = c) := by
  induction l with
  | nil => rfl
  | cons a l ih =>
      simp only [uniqueBy]
      by_cases hc : key a = c
      · rw [List.find?_cons_of_pos _ (by simpa using hc),
            List.find?_cons_of_pos _ (by simpa using hc)]
      · rw [List.find?_cons_of_neg _ (by simpa using hc),
            List.find?_cons_of_neg _ (by simpa using hc),
            find?_filter_of_imp _ _ _ ?_, ih]
        intro y hy
        simp only [decide_eq_true_eq] at hy ⊢
        rw [hy]
        exact fun h => hc h.symm

theorem replaceFirstTweet_map_id (tbl : List TweetRow) (nr : TweetRow) :
    (replaceFirstTweet tbl nr).map (fun r => r.status_id)
      = tbl.map fun r => r.status_id := by
  induction tbl with
  | nil => rfl
  | cons r rs ih =>
      simp only [replaceFirstTweet]
      by_cases h : r.status_id = nr.status_id
      · simp [h]
      · simp [h, ih]

theorem tblHasId_iff (tbl : List TweetRow) (i : Nat) :
    tblHasId tbl i = true ↔ ∃ r ∈ tbl, r.status_id = i := by
  simp [tblHasId, List.any_eq_true]

theorem tblHasId_eq_mem_map (tbl : List TweetRow) (i : Nat) :
    tblHasId tbl i = true ↔ i ∈ tbl.map fun r => r.status_id := by
  rw [tblHasId_iff]
  simp only [List.mem_map]

theorem tblHasId_replaceFirst (tbl : List TweetRow) (nr : TweetRow) (i : Nat) :
    tblHasId (replaceFirstTweet tbl nr) i = tblHasId tbl i := by
  by_cases h : tblHasId tbl i = true
  · have := (tblHasId_eq_mem_map _ _).1 h
    rw [h, (tblHasId_eq_mem_map _ _).2 (by rwa [replaceFirstTweet_map_id])]
  · have h1 : tblHasId tbl i = false := by simpa using h
    have h2 : tblHasId (replaceFirstTweet tbl nr) i = false := by
      by_contra hc
      have := (tblHasId_eq_mem_map _ _).1 (by simpa using hc)
      rw [replaceFirstTweet_map_id] at this
      exact h ((tblHasId_eq_mem_map _ _).2 this)
    rw [h1, h2]

theorem tblHasId_append (t1 t2 : List TweetRow) (i : Nat) :
    tblHasId (t1 ++ t2) i = (tblHasId t1 i || tblHasId t2 i) := by
  simp [tblHasId]

theorem insertTweet_mono (ow : Bool) (tbl : List TweetRow) (r : TweetRow) (i : Nat)
    (h : tblHasId tbl i = true) : tblHasId (insertTweet ow tbl r) i = true := by
  unfold insertTweet
  split
  · cases ow
    · simpa
    · simp [tblHasId_replaceFirst, h]
  · simp [tblHasId_append, h]

theorem insertTweet_self (ow : Bool) (tbl : List TweetRow) (r : TweetRow) :
    tblHasId (insertTweet ow tbl r) r.status_id = true := by
  unfold insertTweet
  split
  · cases ow
    · simpa
    · simpa [tblHasId_replaceFirst]
  · simp [tblHasId_append, tblHasId]

theorem insertTweet_not_has (ow : Bool) (tbl : List TweetRow) (r : TweetRow) (i : Nat)
    (hne : r.status_id ≠ i) (h : tblHasId tbl i = false) :
    tblHasId (insertTweet ow tbl r) i = false := by
  unfold insertTweet
  split
  · cases ow
    · simpa
    · simp [tblHasId_replaceFirst, h]
  · rw [tblHasId_append, h]
    simp [tblHasId, hne]

theorem foldl_insertTweet_mono (ow : Bool) (rs : List TweetRow) (tbl : List TweetRow) (i : Nat)
    (h : tblHasId tbl i = true) :
    tblHasId (rs.foldl (insertTweet ow) tbl) i = true := by
  induction rs generalizing tbl with
  | nil => simpa
  | cons r rs ih => exact ih _ (insertTweet_mono ow tbl r i h)

theorem foldl_insertTweet_covers (ow : Bool) (rs : List TweetRow) (tbl : List TweetRow) :
    ∀ r ∈ rs, tblHasId (rs.foldl (insertTweet ow) tbl) r.status_id = true := by
  induction rs generalizing tbl with
  | nil => intro r hr; cases hr
  | cons r0 rs ih =>
      intro r hr
      rcases List.mem_cons.1 hr with rfl | hr
      · exact foldl_insertTweet_mono ow rs _ _ (insertTweet_self ow tbl r)
      · exact ih _ r hr

theorem foldl_insertTweet_not_has (ow : Bool) (rs : List TweetRow) (tbl : List TweetRow) (i : Nat)
    (hne : ∀ r ∈ rs, r.status_id ≠ i) (h : tblHasId tbl i = false) :
    tblHasId (rs.foldl (insertTweet ow) tbl) i = false := by
  induction rs generalizing tbl with
  | nil => simpa
  | cons r rs ih =>
      exact ih _ (fun r' hr' => hne r' (List.mem_cons.2 (Or.inr hr')))
        (insertTweet_not_has ow tbl r i (hne r (List.mem_cons.2 (Or.inl rfl))) h)

theorem countId_replaceFirst (tbl : List TweetRow) (nr : TweetRow) (i : Nat) :
    countId (replaceFirstTweet tbl nr) i = countId tbl i := by
  induction tbl with
  | nil => rfl
  | cons r rs ih =>
      simp only [replaceFirstTweet]
      by_cases h : r.status_id = nr.status_id
      · simp only [if_pos h, countId, List.filter_cons]
        rw [show (decide (nr.status_id = i)) = decide (r.status_id = i) by rw [h]]
        split <;> simp
      · have ih' : ((replaceFirstTweet rs nr).filter fun x => decide (x.status_id = i)).length
            = (rs.filter fun x => decide (x.status_id = i)).length := ih
        simp only [if_neg h, countId, List.filter_cons]
        split <;> simp [ih']

theorem countId_append (t1 t2 : List TweetRow) (i : Nat) :
    countId (t1 ++ t2) i = countId t1 i + countId t2 i := by
  simp [countId]

theorem countId_insertTweet_of_present (ow : Bool) (tbl : List TweetRow) (r : TweetRow) (i : Nat)
    (h : tblHasId tbl i = true) : countId (insertTweet ow tbl r) i = countId tbl i := by
  unfold insertTweet
  split
  · cases ow
    · simp
    · simp [countId_replaceFirst]
  · rename_i hnp
    have hne : r.status_id ≠ i := fun hh => by
      rw [hh] at hnp; exact hnp h
    rw [countId_append]
    simp [countId, hne]

theorem foldl_insertTweet_countId (ow : Bool) (rs : List TweetRow) (tbl : List TweetRow) (i : Nat)
    (h : tblHasId tbl i = true) :
    countId (rs.foldl (insertTweet ow) tbl) i = countId tbl i := by
  induction rs generalizing tbl with
  | nil => simp
  | cons r rs ih =>
      rw [List.foldl_cons, ih _ (insertTweet_mono ow tbl r i h),
          countId_insertTweet_of_present ow tbl r i h]


theorem insertUserIgnore_proj (db : Db) (u : TUser) :
    (insertUserIgnore db u).tweets = db.tweets ∧
    (insertUserIgnore db u).requests = db.requests ∧
    (insertUserIgnore db u).inaccessible = db.inaccessible := by
  unfold insertUserIgnore; split <;> exact ⟨rfl, rfl, rfl⟩

theorem foldl_insertUserIgnore_proj (l : List TUser) (db : Db) :
    (l.foldl insertUserIgnore db).tweets = db.tweets ∧
    (l.foldl insertUserIgnore db).requests = db.requests ∧
    (l.foldl insertUserIgnore db).inaccessible = db.inaccessible := by
  induction l generalizing db with
  | nil => exact ⟨rfl, rfl, rfl⟩
  | cons u l ih =>
      obtain ⟨h1, h2, h3⟩ := ih (insertUserIgnore db u)
      obtain ⟨g1, g2, g3⟩ := insertUserIgnore_proj db u
      exact ⟨h1.trans g1, h2.trans g2, h3.trans g3⟩

theorem saveUsers_proj (db : Db) (us : List TUser) :
    (saveUsers db us).1.tweets = db.tweets ∧
    (saveUsers db us).1.requests = db.requests ∧
    (saveUsers db us).1.inaccessible = db.inaccessible := by
  unfold saveUsers
  dsimp only
  split
  · exact ⟨rfl, rfl, rfl⟩
  · exact foldl_insertUserIgnore_proj _ db

theorem userIdExists_insertUserIgnore_mono (db : Db) (u : TUser) (i : Nat)
    (h : userIdExists db i = true) : userIdExists (insertUserIgnore db u) i = true := by
  unfold insertUserIgnore
  split
  · exact h
  · simp only [userIdExists] at h
    simp [userIdExists, List.any_append, h]

theorem userIdExists_insertUserIgnore_self (db : Db) (u : TUser) :
    userIdExists (insertUserIgnore db u) u.id = true := by
  unfold insertUserIgnore
  split
  · assumption
  · simp [userIdExists]

theorem foldl_insertUserIgnore_mono (l : List TUser) (db : Db) (i : Nat)
    (h : userIdExists db i = true) : userIdExists (l.foldl insertUserIgnore db) i = true := by
  induction l generalizing db with
  | nil => exact h
  | cons u l ih => exact ih _ (userIdExists_insertUserIgnore_mono db u i h)

theorem foldl_insertUserIgnore_covers (l : List TUser) (db : Db) :
    ∀ u ∈ l, userIdExists (l.foldl insertUserIgnore db) u.id = true := by
  induction l generalizing db with
  | nil => intro u hu; cases hu
  | cons u0 l ih =>
      intro u hu
      rcases List.mem_cons.1 hu with rfl | hu
      · exact foldl_insertUserIgnore_mono l _ _ (userIdExists_insertUserIgnore_self db u)
      · exact ih _ u hu

theorem saveTweets_users (db : Db) (ts : List Status) (ow : Bool) :
    (saveTweets db ts ow).1.users = (saveUsers db (ts.map fun t => t.user)).1.users := by
  unfold saveTweets
  dsimp only
  split
  · split <;> rfl
  · rfl

theorem saveTweets_requests (db : Db) (ts : List Status) (ow : Bool) :
    (saveTweets db ts ow).1.requests = db.requests := by
  unfold saveTweets
  dsimp only
  split
  · split
    · exact (saveUsers_proj db _).2.1
    · exact (saveUsers_proj db _).2.1
  · exact (saveUsers_proj db _).2.1

theorem saveTweets_inaccessible (db : Db) (ts : List Status) (ow : Bool) :
    (saveTweets db ts ow).1.inaccessible = db.inaccessible := by
  unfold saveTweets
  dsimp only
  split
  · split
    · exact (saveUsers_proj db _).2.2
    · exact (saveUsers_proj db _).2.2
  · exact (saveUsers_proj db _).2.2

theorem saveTweets_tweets_eq (db : Db) (ts : List Status) (ow : Bool) :
    (saveTweets db ts ow).1.tweets = db.tweets ∨
      (saveTweets db ts ow).1.tweets
        = ((uniqueBy Status.id ts).map tweetToRecord).foldl (insertTweet ow) db.tweets := by
  unfold saveTweets
  dsimp only
  split
  · split
    · exact Or.inl (saveUsers_proj db _).1
    · exact Or.inr (by rw [(saveUsers_proj db _).1])
  · exact Or.inl (saveUsers_proj db _).1

theorem saveTweets_fail_tweets (db : Db) (ts : List Status) (ow : Bool)
    (h : (saveTweets db ts ow).2 = false) : (saveTweets db ts ow).1.tweets = db.tweets := by
  unfold saveTweets at h ⊢
  dsimp only at h ⊢
  split at h
  · rename_i h1
    rw [if_pos h1]
    split at h
    · rename_i h2
      rw [if_pos h2]
      exact (saveUsers_proj db _).1
    · cases h
  · rename_i h1
    rw [if_neg h1]
    exact (saveUsers_proj db _).1

theorem saveTweets_ok_tweets (db : Db) (ts : List Status) (ow : Bool)
    (h : (saveTweets db ts ow).2 = true) :
    (saveTweets db ts ow).1.tweets
      = ((uniqueBy Status.id ts).map tweetToRecord).foldl (insertTweet ow) db.tweets := by
  unfold saveTweets at h ⊢
  dsimp only at h ⊢
  split at h
  · rename_i h1
    rw [if_pos h1]
    split at h
    · cases h
    · rename_i h2
      rw [if_neg h2]
      dsimp only
      rw [(saveUsers_proj db _).1]
  · cases h

theorem saveTweets_flag_of_clean (db : Db) (ts : List Status) (ow : Bool)
    (h : ∀ t ∈ ts, t.badData = false ∧ t.user.badData = false) :
    (saveTweets db ts ow).2 = true := by
  have husers : ((uniqueBy TUser.id (ts.map fun t => t.user)).any fun u => u.badData)
      = false := by
    rw [List.any_eq_false]
    intro u hu
    obtain ⟨t, ht, rfl⟩ := List.mem_map.1 (mem_of_mem_uniqueBy _ _ _ hu)
    simp [(h t ht).2]
  have hflag : (saveUsers db (ts.map fun t => t.user)).2 = true := by
    unfold saveUsers
    dsimp only
    rw [if_neg (by simp [husers])]
  have hrec : (((uniqueBy Status.id ts).map tweetToRecord).any fun r => r.data.badData)
      = false := by
    rw [List.any_eq_false]
    intro r hr
    obtain ⟨t, ht, rfl⟩ := List.mem_map.1 hr
    simp only [tweetToRecord]
    simp [(h t (mem_of_mem_uniqueBy _ _ _ ht)).1]
  unfold saveTweets
  dsimp only
  rw [if_pos hflag, if_neg (by simp [hrec])]

theorem saveTweets_mono (db : Db) (ts : List Status) (ow : Bool) (i : Nat)
    (h : tblHasId db.tweets i = true) :
    tblHasId (saveTweets db ts ow).1.tweets i = true := by
  rcases saveTweets_tweets_eq db ts ow with he | he <;> rw [he]
  · exact h
  · exact foldl_insertTweet_mono ow _ _ i h

theorem saveTweets_covers (db : Db) (ts : List Status) (ow : Bool)
    (hok : (saveTweets db ts ow).2 = true) :
    ∀ t ∈ ts, tblHasId (saveTweets db ts ow).1.tweets t.id = true := by
  intro t ht
  rw [saveTweets_ok_tweets db ts ow hok]
  obtain ⟨y, hy, hk⟩ := exists_uniqueBy_key Status.id ts t ht
  have hmem : tweetToRecord y ∈ (uniqueBy Status.id ts).map tweetToRecord :=
    List.mem_map.2 ⟨y, hy, rfl⟩
  have := foldl_insertTweet_covers ow ((uniqueBy Status.id ts).map tweetToRecord)
    db.tweets (tweetToRecord y) hmem
  rwa [show (tweetToRecord y).status_id = y.id from rfl, hk] at this

theorem saveTweets_countId_of_present (db : Db) (ts : List Status) (ow : Bool) (i : Nat)
    (h : tblHasId db.tweets i = true) :
    countId (saveTweets db ts ow).1.tweets i = countId db.tweets i := by
  rcases saveTweets_tweets_eq db ts ow with he | he <;> rw [he]
  exact foldl_insertTweet_countId ow _ _ i h

theorem saveTweets_nil (db : Db) (ow : Bool) : saveTweets db [] ow = (db, true) := rfl


theorem find?_append_none {α : Type} (l1 l2 : List α) (p : α → Bool)
    (h : l1.find? p = none) : (l1 ++ l2).find? p = l2.find? p := by
  induction l1 with
  | nil => rfl
  | cons a l ih =>
      rw [List.find?_eq_none] at h
      have ha : ¬ p a = true := h a (List.mem_cons_self a l)
      rw [List.cons_append, List.find?_cons_of_neg _ ha]
      exact ih (List.find?_eq_none.2 fun x hx => h x (List.mem_cons.2 (Or.inr hx)))

theorem find?_append_some {α : Type} (l1 l2 : List α) (p : α → Bool) (x : α)
    (h : l1.find? p = some x) : (l1 ++ l2).find? p = some x := by
  induction l1 with
  | nil => cases h
  | cons a l ih =>
      by_cases ha : p a = true
      · rw [List.find?_cons_of_pos _ ha] at h
        rw [List.cons_append, List.find?_cons_of_pos _ ha]
        exact h
      · rw [List.find?_cons_of_neg _ ha] at h
        rw [List.cons_append, List.find?_cons_of_neg _ ha]
        exact ih h

theorem find?_replaceFirst_self (tbl : List TweetRow) (nr : TweetRow)
    (h : tblHasId tbl nr.status_id = true) :
    (replaceFirstTweet tbl nr).find? (fun r => decide (r.status_id = nr.status_id)) = some nr := by
  induction tbl with
  | nil => cases (by simpa [tblHasId] using h : False)
  | cons r rs ih =>
      simp only [replaceFirstTweet]
      by_cases hr : r.status_id = nr.status_id
      · rw [if_pos hr]
        exact List.find?_cons_of_pos _ (by simp)
      · rw [if_neg hr, List.find?_cons_of_neg _ (by simpa using hr)]
        apply ih
        simp only [tblHasId, List.any_cons] at h
        simpa [hr, tblHasId] using h

theorem find?_replaceFirst_other (tbl : List TweetRow) (nr : TweetRow) (j : Nat)
    (hj : j ≠ nr.status_id) :
    (replaceFirstTweet tbl nr).find? (fun r => decide (r.status_id = j))
      = tbl.find? fun r => decide (r.status_id = j) := by
  induction tbl with
  | nil => rfl
  | cons r rs ih =>
      simp only [replaceFirstTweet]
      by_cases hr : r.status_id = nr.status_id
      · rw [if_pos hr]
        have e1 : List.find? (fun x => decide (x.status_id = j)) (nr :: rs)
            = List.find? (fun x => decide (x.status_id = j)) rs :=
          List.find?_cons_of_neg _ (by
            simp only [decide_eq_true_eq]
            exact fun hh => hj hh.symm)
        have e2 : List.find? (fun x => decide (x.status_id = j)) (r :: rs)
            = List.find? (fun x => decide (x.status_id = j)) rs :=
          List.find?_cons_of_neg _ (by
            simp only [decide_eq_true_eq, hr]
            exact fun hh => hj hh.symm)
        exact e1.trans e2.symm
      · rw [if_neg hr]
        by_cases hrj : r.status_id = j
        · rw [List.find?_cons_of_pos _ (by simpa using hrj),
              List.find?_cons_of_pos _ (by simpa using hrj)]
        · rw [List.find?_cons_of_neg _ (by simpa using hrj),
              List.find?_cons_of_neg _ (by simpa using hrj), ih]

theorem find?_insertTweet_self (tbl : List TweetRow) (r : TweetRow) :
    (insertTweet true tbl r).find? (fun x => decide (x.status_id = r.status_id)) = some r := by
  by_cases h : tblHasId tbl r.status_id = true
  · rw [show insertTweet true tbl r = replaceFirstTweet tbl r by simp [insertTweet, h]]
    exact find?_replaceFirst_self tbl r h
  · have hfalse : tblHasId tbl r.status_id = false := by simpa using h
    rw [show insertTweet true tbl r = tbl ++ [r] by simp [insertTweet, hfalse]]
    have hnone : tbl.find? (fun x => decide (x.status_id = r.status_id)) = none := by
      rw [List.find?_eq_none]
      intro x hx
      simp only [decide_eq_true_eq]
      intro hxe
      exact h ((tblHasId_iff _ _).2 ⟨x, hx, hxe⟩)
    rw [find?_append_none _ _ _ hnone]
    simp [List.find?]

theorem find?_insertTweet_other (tbl : List TweetRow) (r : TweetRow) (j : Nat)
    (hj : j ≠ r.status_id) :
    (insertTweet true tbl r).find? (fun x => decide (x.status_id = j))
      = tbl.find? fun x => decide (x.status_id = j) := by
  by_cases h : tblHasId tbl r.status_id = true
  · rw [show insertTweet true tbl r = replaceFirstTweet tbl r by simp [insertTweet, h]]
    exact find?_replaceFirst_other tbl r j hj
  · have hfalse : tblHasId tbl r.status_id = false := by simpa using h
    rw [show insertTweet true tbl r = tbl ++ [r] by simp [insertTweet, hfalse]]
    cases hf : tbl.find? fun x => decide (x.status_id = j) with
    | none =>
        rw [find?_append_none _ _ _ hf]
        simp only [List.find?]
        rw [show (decide (r.status_id = j)) = false by
          simp only [decide_eq_false_iff_not]; exact fun hh => hj hh.symm]
    | some x => exact find?_append_some _ _ _ x hf

theorem foldl_insert_find_frozen (rs : List TweetRow) (tbl : List TweetRow) (j : Nat)
    (hne : ∀ r ∈ rs, r.status_id ≠ j) :
    (rs.foldl (insertTweet true) tbl).find? (fun x => decide (x.status_id = j))
      = tbl.find? fun x => decide (x.status_id = j) := by
  induction rs generalizing tbl with
  | nil => rfl
  | cons r rs ih =>
      rw [List.foldl_cons, ih _ fun r' hr' => hne r' (List.mem_cons.2 (Or.inr hr'))]
      exact find?_insertTweet_other tbl r j
        fun hh => hne r (List.mem_cons.2 (Or.inl rfl)) hh.symm

theorem foldl_insert_find_covers (rs : List TweetRow) (tbl : List TweetRow)
    (hpw : rs.Pairwise fun a b => a.status_id ≠ b.status_id) :
    ∀ r ∈ rs,
      (rs.foldl (insertTweet true) tbl).find? (fun x => decide (x.status_id = r.status_id))
        = some r := by
  induction rs generalizing tbl with
  | nil => intro r hr; cases hr
  | cons r0 rs ih =>
      intro r hr
      rcases List.mem_cons.1 hr with rfl | hr
      · rw [List.foldl_cons,
            foldl_insert_find_frozen rs _ _ fun r' hr' hh =>
              (List.pairwise_cons.1 hpw).1 r' hr' hh.symm]
        exact find?_insertTweet_self tbl r
      · exact ih _ (List.pairwise_cons.1 hpw).2 r hr

theorem deleteTweets_not_has (db : Db) (ids : List Nat) (i : Nat) (hi : i ∈ ids) :
    tblHasId (deleteTweets db ids).tweets i = false := by
  rw [Bool.eq_false_iff]
  intro hc
  obtain ⟨r, hr, hre⟩ := (tblHasId_iff _ _).1 hc
  simp only [deleteTweets, List.mem_filter, Bool.not_eq_eq_eq_not, Bool.not_true,
    List.any_eq_false] at hr
  exact (by simpa using hr.2 i hi : ¬ i = r.status_id) hre.symm



theorem phaseStep_inv (now : ℚ) (db : Db) (clean : SN) (k : ReqKind)
    (resp : Except Unit (List Status)) (db' : Db) (ev : TraceEv)
    (h : phaseStep now db clean k resp = .ok (db', ev)) :
    ev = ⟨clean, k, phaseOkB resp⟩ ∧
    db'.requests = db.requests ++ (if phaseOkB resp then [⟨clean, k, now⟩] else []) ∧
    (∀ i, tblHasId db.tweets i = true → tblHasId db'.tweets i = true) ∧
    db'.inaccessible = db.inaccessible := by
  cases resp with
  | error e =>
      simp only [phaseStep] at h
      obtain ⟨rfl, rfl⟩ := Prod.mk.injEq .. ▸ (Except.ok.injEq .. ▸ h :)
      exact ⟨rfl, by simp [phaseOkB], fun i hi => hi, rfl⟩
  | ok ts =>
      simp only [phaseStep] at h
      split at h
      · rename_i hflag
        obtain ⟨rfl, rfl⟩ := Prod.mk.injEq .. ▸ (Except.ok.injEq .. ▸ h :)
        refine ⟨rfl, ?_, ?_, ?_⟩
        · rw [saveTweets_requests]
          simp [saveRequest, phaseOkB]
        · intro i hi
          exact saveTweets_mono _ _ _ i (by simpa [saveRequest] using hi)
        · rw [saveTweets_inaccessible]
          rfl
      · cases h

theorem phaseStep_covers (now : ℚ) (db : Db) (clean : SN) (k : ReqKind)
    (ts : List Status) (db' : Db) (ev : TraceEv)
    (h : phaseStep now db clean k (.ok ts) = .ok (db', ev)) :
    ∀ t ∈ ts, tblHasId db'.tweets t.id = true := by
  intro t ht
  simp only [phaseStep] at h
  split at h
  · rename_i hflag
    obtain ⟨rfl, rfl⟩ := Prod.mk.injEq .. ▸ (Except.ok.injEq .. ▸ h :)
    by_cases hex : tweetIdExists db t.id = true
    · refine saveTweets_mono _ _ _ t.id ?_
      simpa [saveRequest, tweetIdExists] using hex
    · have hmem : t ∈ ts.filter fun t => !tweetIdExists db t.id :=
        List.mem_filter.2 ⟨ht, by simpa using hex⟩
      exact saveTweets_covers _ _ _ hflag t hmem
  · cases h

theorem phaseStep_clean_ex (now : ℚ) (db : Db) (clean : SN) (k : ReqKind)
    (resp : Except Unit (List Status)) (hc : respClean resp) :
    ∃ db', phaseStep now db clean k resp = .ok (db', ⟨clean, k, phaseOkB resp⟩) := by
  cases resp with
  | error e => exact ⟨db, rfl⟩
  | ok ts =>
      simp only [respClean] at hc
      have hflag := saveTweets_flag_of_clean (saveRequest now db clean k)
        (ts.filter fun t => !tweetIdExists db t.id) false
        fun t ht => hc t (List.mem_of_mem_filter ht)
      refine ⟨(saveTweets (saveRequest now db clean k)
        (ts.filter fun t => !tweetIdExists db t.id) false).1, ?_⟩
      simp only [phaseStep, phaseOkB]
      rw [if_pos hflag]

theorem phaseStep_idle (now : ℚ) (db : Db) (clean : SN) (k : ReqKind)
    (resp : Except Unit (List Status)) (hcov : respCovered db resp) :
    ∃ db', phaseStep now db clean k resp = .ok (db', ⟨clean, k, phaseOkB resp⟩) ∧
      db'.tweets = db.tweets ∧ db'.users = db.users := by
  cases resp with
  | error e => exact ⟨db, rfl, rfl, rfl⟩
  | ok ts =>
      simp only [respCovered] at hcov
      have hnil : (ts.filter fun t => !tweetIdExists db t.id) = [] := by
        rw [List.filter_eq_nil_iff]
        intro t ht
        simp [hcov t ht]
      refine ⟨saveRequest now db clean k, ?_, rfl, rfl⟩
      simp only [phaseStep, phaseOkB, hnil, saveTweets_nil]
      simp

theorem processAccount_parts (o : FetchOracle) (now : ℚ) (db : Db) (sn : SN)
    (db' : Db) (tr : List TraceEv)
    (h : processAccount o now db sn = .ok (db', tr)) :
    ∃ db1 ev1 ev2,
      phaseStep now db (pyNormalize sn) .get_replies (o.replies (pyNormalize sn))
        = .ok (db1, ev1) ∧
      phaseStep now db1 (pyNormalize sn) .get_ats (o.ats (pyNormalize sn))
        = .ok (db', ev2) ∧
      tr = [ev1, ev2] := by
  unfold processAccount at h
  dsimp only at h
  split at h
  · cases h
  · rename_i d1 e1 hp1
    split at h
    · cases h
    · rename_i d2 e2 hp2
      have h2 := Prod.mk.injEq .. ▸ (Except.ok.injEq .. ▸ h :)
      exact ⟨d1, e1, e2, hp1, h2.1 ▸ hp2, h2.2.symm⟩

theorem processAccount_inv (o : FetchOracle) (now : ℚ) (db : Db) (sn : SN)
    (db' : Db) (tr : List TraceEv)
    (h : processAccount o now db sn = .ok (db', tr)) :
    (∀ ev ∈ tr, ev.name = pyNormalize sn) ∧
    (∀ r ∈ db'.requests, r ∈ db.requests ∨ r.screen_name = pyNormalize sn) ∧
    (∀ i, tblHasId db.tweets i = true → tblHasId db'.tweets i = true) ∧
    db'.inaccessible = db.inaccessible := by
  obtain ⟨db1, ev1, ev2, hp1, hp2, rfl⟩ := processAccount_parts o now db sn db' tr h
  obtain ⟨he1, hr1, hm1, hi1⟩ := phaseStep_inv _ _ _ _ _ _ _ hp1
  obtain ⟨he2, hr2, hm2, hi2⟩ := phaseStep_inv _ _ _ _ _ _ _ hp2
  refine ⟨?_, ?_, ?_, hi2.trans hi1⟩
  · intro ev hev
    rcases List.mem_cons.1 hev with rfl | hev
    · rw [he1]
    · rcases List.mem_cons.1 hev with rfl | hev
      · rw [he2]
      · cases hev
  · intro r hr
    rw [hr2] at hr
    rcases List.mem_append.1 hr with hr | hr
    · rw [hr1] at hr
      rcases List.mem_append.1 hr with hr | hr
      · exact Or.inl hr
      · right
        split at hr
        · rcases List.mem_singleton.1 hr with rfl; rfl
        · cases hr
    · right
      split at hr
      · rcases List.mem_singleton.1 hr with rfl; rfl
      · cases hr
  · exact fun i hi => hm2 i (hm1 i hi)

theorem processAccount_clean (o : FetchOracle) (now : ℚ) (db : Db) (sn : SN)
    (hc : accountClean o sn) :
    ∃ db', processAccount o now db sn = .ok (db',
      [⟨pyNormalize sn, .get_replies, phaseOkB (o.replies (pyNormalize sn))⟩,
       ⟨pyNormalize sn, .get_ats, phaseOkB (o.ats (pyNormalize sn))⟩]) := by
  obtain ⟨db1, hp1⟩ := phaseStep_clean_ex now db (pyNormalize sn) .get_replies _ hc.1
  obtain ⟨db2, hp2⟩ := phaseStep_clean_ex now db1 (pyNormalize sn) .get_ats _ hc.2
  refine ⟨db2, ?_⟩
  unfold processAccount
  simp only [hp1, hp2]

theorem processAccount_requests_len (o : FetchOracle) (now : ℚ) (db : Db) (sn : SN)
    (db' : Db) (tr : List TraceEv)
    (h : processAccount o now db sn = .ok (db', tr))
    (hok : phaseOkB (o.replies (pyNormalize sn)) = true ∧
           phaseOkB (o.ats (pyNormalize sn)) = true) :
    db'.requests.length = db.requests.length + 2 := by
  obtain ⟨db1, ev1, ev2, hp1, hp2, rfl⟩ := processAccount_parts o now db sn db' tr h
  obtain ⟨-, hr1, -, -⟩ := phaseStep_inv _ _ _ _ _ _ _ hp1
  obtain ⟨-, hr2, -, -⟩ := phaseStep_inv _ _ _ _ _ _ _ hp2
  rw [hr2, hr1, hok.1, hok.2]
  simp

theorem processAccount_covered (o : FetchOracle) (now : ℚ) (db : Db) (sn : SN)
    (db' : Db) (tr : List TraceEv)
    (h : processAccount o now db sn = .ok (db', tr)) :
    accountCovered o db' sn := by
  obtain ⟨db1, ev1, ev2, hp1, hp2, rfl⟩ := processAccount_parts o now db sn db' tr h
  obtain ⟨-, -, hm2, -⟩ := phaseStep_inv _ _ _ _ _ _ _ hp2
  constructor
  · cases hq : o.replies (pyNormalize sn) with
    | error e => exact trivial
    | ok ts =>
        rw [hq] at hp1
        intro t ht
        exact hm2 t.id (phaseStep_covers _ _ _ _ _ _ _ hp1 t ht)
  · cases hq : o.ats (pyNormalize sn) with
    | error e => exact trivial
    | ok ts =>
        rw [hq] at hp2
        intro t ht
        exact phaseStep_covers _ _ _ _ _ _ _ hp2 t ht

theorem respCovered_congr (db db' : Db) (resp : Except Unit (List Status))
    (ht : db'.tweets = db.tweets) (h : respCovered db resp) : respCovered db' resp := by
  cases resp with
  | error e => exact trivial
  | ok ts =>
      intro t htm
      have := h t htm
      simpa [tweetIdExists, ht] using this

theorem respCovered_mono (db db' : Db) (resp : Except Unit (List Status))
    (hm : ∀ i, tblHasId db.tweets i = true → tblHasId db'.tweets i = true)
    (h : respCovered db resp) : respCovered db' resp := by
  cases resp with
  | error e => exact trivial
  | ok ts => exact fun t htm => hm t.id (h t htm)

theorem processAccount_idle (o : FetchOracle) (now : ℚ) (db : Db) (sn : SN)
    (hcov : accountCovered o db sn) :
    ∃ db' tr, processAccount o now db sn = .ok (db', tr) ∧
      db'.tweets = db.tweets ∧ db'.users = db.users := by
  obtain ⟨db1, hp1, ht1, hu1⟩ := phaseStep_idle now db (pyNormalize sn) .get_replies _ hcov.1
  obtain ⟨db2, hp2, ht2, hu2⟩ := phaseStep_idle now db1 (pyNormalize sn) .get_ats _
    (respCovered_congr db db1 _ ht1 hcov.2)
  refine ⟨db2,
    [⟨pyNormalize sn, .get_replies, phaseOkB (o.replies (pyNormalize sn))⟩,
     ⟨pyNormalize sn, .get_ats, phaseOkB (o.ats (pyNormalize sn))⟩],
    ?_, ht2.trans ht1, hu2.trans hu1⟩
  unfold processAccount
  simp only [hp1, hp2]


theorem collectAccounts_parts (o : FetchOracle) (now : ℚ) (db : Db) (sn : SN)
    (rest : List SN) (db' : Db) (tr : List TraceEv)
    (h : collectAccounts o now db (sn :: rest) = .ok (db', tr)) :
    ∃ db1 evs evs2, processAccount o now db sn = .ok (db1, evs) ∧
      collectAccounts o now db1 rest = .ok (db', evs2) ∧ tr = evs ++ evs2 := by
  unfold collectAccounts at h
  split at h
  · cases h
  · rename_i d1 evs hpa
    split at h
    · cases h
    · rename_i d2 evs2 hcol
      have h2 := Prod.mk.injEq .. ▸ (Except.ok.injEq .. ▸ h :)
      exact ⟨d1, evs, evs2, hpa, h2.1 ▸ hcol, h2.2.symm⟩

theorem collect_clean (o : FetchOracle) (now : ℚ) (l : List SN) (db : Db)
    (hc : ∀ sn ∈ l, accountClean o sn) :
    ∃ db', collectAccounts o now db l = .ok (db', l.flatMap fun sn =>
      [⟨pyNormalize sn, .get_replies, phaseOkB (o.replies (pyNormalize sn))⟩,
       ⟨pyNormalize sn, .get_ats, phaseOkB (o.ats (pyNormalize sn))⟩]) := by
  induction l generalizing db with
  | nil => exact ⟨db, by simp [collectAccounts]⟩
  | cons sn rest ih =>
      obtain ⟨db1, hpa⟩ := processAccount_clean o now db sn
        (hc sn (List.mem_cons_self sn rest))
      obtain ⟨db2, hcol⟩ := ih db1 fun x hx => hc x (List.mem_cons.2 (Or.inr hx))
      refine ⟨db2, ?_⟩
      unfold collectAccounts
      simp only [hpa, hcol, List.flatMap_cons]

theorem collect_requests_len (o : FetchOracle) (now : ℚ) (l : List SN) (db db' : Db)
    (tr : List TraceEv) (h : collectAccounts o now db l = .ok (db', tr))
    (hok : ∀ sn ∈ l, phaseOkB (o.replies (pyNormalize sn)) = true ∧
      phaseOkB (o.ats (pyNormalize sn)) = true) :
    db'.requests.length = db.requests.length + 2 * l.length := by
  induction l generalizing db tr with
  | nil =>
      unfold collectAccounts at h
      have h2 := Prod.mk.injEq .. ▸ (Except.ok.injEq .. ▸ h :)
      rw [← h2.1]
      simp
  | cons sn rest ih =>
      obtain ⟨db1, evs, evs2, hpa, hcol, rfl⟩ :=
        collectAccounts_parts o now db sn rest db' tr h
      have hlen1 := processAccount_requests_len o now db sn db1 evs hpa
        (hok sn (List.mem_cons_self sn rest))
      have hlen2 := ih db1 evs2 hcol fun x hx => hok x (List.mem_cons.2 (Or.inr hx))
      rw [hlen2, hlen1]
      simp [List.length_cons]
      ring

theorem collect_inv (o : FetchOracle) (now : ℚ) (l : List SN) (db db' : Db)
    (tr : List TraceEv) (h : collectAccounts o now db l = .ok (db', tr)) :
    (∀ ev ∈ tr, ∃ sn ∈ l, ev.name = pyNormalize sn) ∧
    (∀ r ∈ db'.requests, r ∈ db.requests ∨ ∃ sn ∈ l, r.screen_name = pyNormalize sn) ∧
    (∀ i, tblHasId db.tweets i = true → tblHasId db'.tweets i = true) := by
  induction l generalizing db tr with
  | nil =>
      unfold collectAccounts at h
      have h2 := Prod.mk.injEq .. ▸ (Except.ok.injEq .. ▸ h :)
      rw [← h2.1, ← h2.2]
      refine ⟨?_, ?_, ?_⟩
      · intro ev hev
        cases hev
      · intro r hr
        exact Or.inl hr
      · intro i hi
        exact hi
  | cons sn rest ih =>
      obtain ⟨db1, evs, evs2, hpa, hcol, rfl⟩ :=
        collectAccounts_parts o now db sn rest db' tr h
      obtain ⟨hn1, hreq1, hm1, -⟩ := processAccount_inv o now db sn db1 evs hpa
      obtain ⟨hn2, hreq2, hm2⟩ := ih db1 evs2 hcol
      refine ⟨?_, ?_, fun i hi => hm2 i (hm1 i hi)⟩
      · intro ev hev
        rcases List.mem_append.1 hev with hev | hev
        · exact ⟨sn, List.mem_cons_self sn rest, hn1 ev hev⟩
        · obtain ⟨x, hx, he⟩ := hn2 ev hev
          exact ⟨x, List.mem_cons.2 (Or.inr hx), he⟩
      · intro r hr
        rcases hreq2 r hr with hr1 | ⟨x, hx, he⟩
        · rcases hreq1 r hr1 with hr0 | he
          · exact Or.inl hr0
          · exact Or.inr ⟨sn, List.mem_cons_self sn rest, he⟩
        · exact Or.inr ⟨x, List.mem_cons.2 (Or.inr hx), he⟩

theorem accountCovered_mono (o : FetchOracle) (db db' : Db) (sn : SN)
    (hm : ∀ i, tblHasId db.tweets i = true → tblHasId db'.tweets i = true)
    (h : accountCovered o db sn) : accountCovered o db' sn :=
  ⟨respCovered_mono db db' _ hm h.1, respCovered_mono db db' _ hm h.2⟩

theorem accountCovered_congr (o : FetchOracle) (db db' : Db) (sn : SN)
    (ht : db'.tweets = db.tweets) (h : accountCovered o db sn) : accountCovered o db' sn :=
  ⟨respCovered_congr db db' _ ht h.1, respCovered_congr db db' _ ht h.2⟩

theorem collect_covered (o : FetchOracle) (now : ℚ) (l : List SN) (db db' : Db)
    (tr : List TraceEv) (h : collectAccounts o now db l = .ok (db', tr)) :
    ∀ sn ∈ l, accountCovered o db' sn := by
  induction l generalizing db tr with
  | nil => intro sn hsn; cases hsn
  | cons sn0 rest ih =>
      intro sn hsn
      obtain ⟨db1, evs, evs2, hpa, hcol, rfl⟩ :=
        collectAccounts_parts o now db sn0 rest db' tr h
      rcases List.mem_cons.1 hsn with rfl | hsn
      · exact accountCovered_mono o db1 db' sn
          (collect_inv o now rest db1 db' evs2 hcol).2.2
          (processAccount_covered o now db sn db1 evs hpa)
      · exact ih db1 evs2 hcol sn hsn

theorem collect_idle (o : FetchOracle) (now : ℚ) (l : List SN) (db : Db)
    (hcov : ∀ sn ∈ l, accountCovered o db sn) :
    ∃ db' tr, collectAccounts o now db l = .ok (db', tr) ∧
      db'.tweets = db.tweets ∧ db'.users = db.users := by
  induction l generalizing db with
  | nil => exact ⟨db, [], rfl, rfl, rfl⟩
  | cons sn rest ih =>
      obtain ⟨db1, evs, hpa, ht1, hu1⟩ :=
        processAccount_idle o now db sn (hcov sn (List.mem_cons_self sn rest))
      obtain ⟨db2, evs2, hcol, ht2, hu2⟩ := ih db1 fun x hx =>
        accountCovered_congr o db db1 x ht1 (hcov x (List.mem_cons.2 (Or.inr hx)))
      refine ⟨db2, evs ++ evs2, ?_, ht2.trans ht1, hu2.trans hu1⟩
      unfold collectAccounts
      simp only [hpa, hcol]


theorem pyLower_idem (c : Nat) : pyLower (pyLower c) = pyLower c := by
  unfold pyLower
  by_cases h : 65 ≤ c ∧ c ≤ 90
  · simp only [if_pos h]
    rw [if_neg (by omega)]
  · simp only [if_neg h]

theorem pyLower_eq_64 (c : Nat) : pyLower c = 64 ↔ c = 64 := by
  unfold pyLower
  split <;> omega

theorem dropWhile64_map_pyLower (s : SN) :
    (s.map pyLower).dropWhile (fun c => decide (c = 64))
      = (s.dropWhile fun c => decide (c = 64)).map pyLower := by
  induction s with
  | nil => rfl
  | cons c cs ih =>
      by_cases h : c = 64
      · subst h
        have h64 : pyLower 64 = 64 := by simp [pyLower]
        simp only [List.map_cons, List.dropWhile_cons, h64]
        simpa using ih
      · have hl : ¬ pyLower c = 64 := fun hc => h ((pyLower_eq_64 c).1 hc)
        simp only [List.map_cons, List.dropWhile_cons]
        rw [if_neg (by simpa using hl), if_neg (by simpa using h)]
        simp

theorem stripAt_lowerStr_comm (s : SN) : stripAt (lowerStr s) = lowerStr (stripAt s) := by
  unfold stripAt lowerStr
  rw [dropWhile64_map_pyLower, ← List.map_reverse, dropWhile64_map_pyLower, ← List.map_reverse]

theorem dropWhile_idem {α : Type} (p : α → Bool) (l : List α) :
    (l.dropWhile p).dropWhile p = l.dropWhile p := by
  induction l with
  | nil => rfl
  | cons a l ih =>
      by_cases h : p a = true
      · simp only [List.dropWhile_cons, if_pos h]
        exact ih
      · simp only [List.dropWhile_cons, if_neg h]

theorem dropWhile_head_false {α : Type} (p : α → Bool) (l : List α) (a : α) (t : List α)
    (h : l.dropWhile p = a :: t) : p a = false := by
  induction l with
  | nil => cases h
  | cons b bs ih =>
      by_cases hb : p b = true
      · rw [List.dropWhile_cons, if_pos hb] at h
        exact ih h
      · rw [List.dropWhile_cons, if_neg hb] at h
        injection h with h1 h2
        rw [← h1]
        simpa using hb

theorem dropWhile_eq_self_of_head {α : Type} (p : α → Bool) (l : List α)
    (h : ∀ a t, l = a :: t → p a = false) : l.dropWhile p = l := by
  cases l with
  | nil => rfl
  | cons a t => rw [List.dropWhile_cons, if_neg (by simp [h a t rfl])]

theorem stripAt_frontClean (s : SN) :
    (stripAt s).dropWhile (fun c => decide (c = 64)) = stripAt s := by
  apply dropWhile_eq_self_of_head
  intro a t hat
  have hsuf : (stripAt s).reverse
      <:+ ((s.dropWhile fun c => decide (c = 64)).reverse) := by
    unfold stripAt
    rw [List.reverse_reverse]
    exact List.dropWhile_suffix _
  have hpre : stripAt s <+: (s.dropWhile fun c => decide (c = 64)) := by
    have hrp := List.reverse_prefix.2 hsuf
    simpa using hrp
  obtain ⟨rest, hrest⟩ := hpre
  rw [hat] at hrest
  exact dropWhile_head_false _ s a (t ++ rest) (by rw [← hrest, List.cons_append])

theorem stripAt_idem (s : SN) : stripAt (stripAt s) = stripAt s := by
  have h1 : (stripAt s).dropWhile (fun c => decide (c = 64)) = stripAt s :=
    stripAt_frontClean s
  show ((((stripAt s).dropWhile fun c => decide (c = 64)).reverse.dropWhile
      fun c => decide (c = 64)).reverse) = stripAt s
  rw [h1]
  have h2 : (stripAt s).reverse
      = ((s.dropWhile fun c => decide (c = 64)).reverse.dropWhile fun c => decide (c = 64)) := by
    unfold stripAt
    rw [List.reverse_reverse]
  rw [h2, dropWhile_idem]
  unfold stripAt
  rfl

theorem lowerStr_idem (s : SN) : lowerStr (lowerStr s) = lowerStr s := by
  unfold lowerStr
  rw [List.map_map]
  exact List.map_congr_left fun a _ => pyLower_idem a

theorem pyNormalize_idem (s : SN) : pyNormalize (pyNormalize s) = pyNormalize s := by
  unfold pyNormalize
  rw [stripAt_lowerStr_comm, stripAt_idem, lowerStr_idem]

theorem pyNormalize_atSign (s : SN) : pyNormalize (64 :: s) = pyNormalize s := by
  unfold pyNormalize stripAt
  rw [List.dropWhile_cons]
  simp

theorem pyNormalize_congr_lower (s t : SN) (h : lowerStr s = lowerStr t) :
    pyNormalize s = pyNormalize t := by
  unfold pyNormalize
  rw [← stripAt_lowerStr_comm, ← stripAt_lowerStr_comm, h]


/-! ### The claims -/

/-- C6: once a message id is recorded as an InaccessibleMarker it is
excluded from the Orphan Resolver candidate set of every subsequent run
(`get_orphaned_tweets` anti-joins the marker table), and an orphan-batch
step marks as inaccessible every batch id the lookup did not return, so a
reply whose parent lookup returned nothing never causes an infinite
retry. -/
theorem claim6_inaccessible_never_retried (now : ℚ) (db : Db) (i : Nat) :
    (i ∈ db.inaccessible → i ∉ getOrphanedTweets now db) ∧
    (∀ ids resp, i ∈ ids → (∀ t ∈ resp, t.id ≠ i) →
      i ∈ ((orphanBatchStep db ids resp).1).inaccessible) := by
  constructor
  · intro hmem hcontra
    have hmap := List.mem_of_mem_take hcontra
    obtain ⟨r, hr, hf⟩ := List.mem_map.1 hmap
    have hpred := (List.mem_filter.1 hr).2
    cases hrep : r.data.in_reply_to_status_id with
    | none => rw [hrep] at hpred; cases hpred
    | some q =>
        rw [hrep] at hpred hf
        simp only [Option.getD_some] at hf
        subst hf
        simp only [Bool.and_eq_true, Bool.not_eq_eq_eq_not, Bool.not_true,
          List.any_eq_false] at hpred
        exact (by simpa using hpred.1.2 q hmem : ¬ q = q) rfl
  · intro ids resp hin hno
    have : ((orphanBatchStep db ids resp).1).inaccessible
        = db.inaccessible ++ ids.filter fun j => !resp.any fun t => decide (t.id = j) := by
      unfold orphanBatchStep
      rw [saveTweets_inaccessible]
      rfl
    rw [this]
    refine List.mem_append.2 (Or.inr (List.mem_filter.2 ⟨hin, ?_⟩))
    have hany : (resp.any fun t => decide (t.id = i)) = false := by
      rw [List.any_eq_false]
      intro t ht
      simpa using hno t ht
    simp [hany]

/-- Witness for C6: in a store whose marker table holds id 9, the orphan
query omits 9 even though a stored reply points at it, and a batch step
whose lookup returns nothing marks 9. -/
theorem claim6_witness :
    9 ∈ exDb6.inaccessible ∧ 9 ∉ getOrphanedTweets 0 exDb6 ∧
    9 ∈ ((orphanBatchStep exDb6 [9] []).1).inaccessible := by
  have hm : 9 ∈ exDb6.inaccessible := by simp [exDb6]
  exact ⟨hm, (claim6_inaccessible_never_retried 0 exDb6 9).1 hm,
    (claim6_inaccessible_never_retried 0 exDb6 9).2 [9] [] (by simp) (by simp)⟩

/-- C7: in a truncation-repair batch (with re-fetched payloads that insert
cleanly), the step reports success, every batch id the re-fetch did not
return is hard-deleted from the store, and every id the re-fetch did
return ends up stored with exactly the re-fetched payload (the first
returned occurrence), the overwrite-on-conflict policy having replaced any
previous row.  The cleanliness hypothesis covers both the tweet records
and their author records, since a malformed record of either kind aborts
the save. -/
theorem claim7_truncation_reconciliation (db : Db) (ids : List Nat) (resp : List Status)
    (hclean : ∀ t ∈ resp, t.badData = false ∧ t.user.badData = false) :
    (truncateBatchStep db ids resp).2 = true ∧
    (∀ i ∈ ids, (∀ t ∈ resp, t.id ≠ i) →
      tblHasId ((truncateBatchStep db ids resp).1).tweets i = false) ∧
    (∀ i t0, resp.find? (fun t => decide (t.id = i)) = some t0 →
      findTweet (truncateBatchStep db ids resp).1 i = some (tweetToRecord t0)) := by
  by_cases hre : resp = []
  · subst hre
    refine ⟨?_, ?_, ?_⟩
    · unfold truncateBatchStep
      simp
    · intro i hi hno
      have hstep : (truncateBatchStep db ids []).1 = deleteTweets db ids := by
        unfold truncateBatchStep
        have hmiss : (ids.filter fun j => !([] : List Status).any fun t => decide (t.id = j))
            = ids := by simp
        rw [hmiss]
        have : ids.isEmpty = false := by
          cases ids with
          | nil => cases hi
          | cons a l => rfl
        simp [this]
      rw [hstep]
      exact deleteTweets_not_has db ids i hi
    · intro i t0 hfind
      cases hfind
  · have hresp : resp.isEmpty = false := by
      cases resp with
      | nil => exact absurd rfl hre
      | cons a l => rfl
    have hstep : truncateBatchStep db ids resp
        = saveTweets (if (ids.filter fun j => !resp.any fun t => decide (t.id = j)).isEmpty
            then db
            else deleteTweets db (ids.filter fun j => !resp.any fun t => decide (t.id = j)))
          resp true := by
      unfold truncateBatchStep
      rw [hresp]
      simp
    have hflag : (truncateBatchStep db ids resp).2 = true := by
      rw [hstep]
      exact saveTweets_flag_of_clean _ resp true hclean
    refine ⟨hflag, ?_, ?_⟩
    · intro i hi hno
      have hmem : i ∈ ids.filter fun j => !resp.any fun t => decide (t.id = j) := by
        refine List.mem_filter.2 ⟨hi, ?_⟩
        have hany : (resp.any fun t => decide (t.id = i)) = false := by
          rw [List.any_eq_false]
          intro t ht
          simpa using hno t ht
        simp [hany]
      have hne : (ids.filter fun j => !resp.any fun t => decide (t.id = j)).isEmpty = false := by
        cases hh : ids.filter fun j => !resp.any fun t => decide (t.id = j) with
        | nil => rw [hh] at hmem; cases hmem
        | cons a l => rfl
      have hbase : tblHasId (if (ids.filter fun j =>
            !resp.any fun t => decide (t.id = j)).isEmpty
          then db
          else deleteTweets db (ids.filter fun j =>
            !resp.any fun t => decide (t.id = j))).tweets i = false := by
        rw [hne]
        simp only [Bool.false_eq_true, if_false]
        exact deleteTweets_not_has db _ i hmem
      rw [hstep]
      have hflag2 : (saveTweets (if (ids.filter fun j =>
            !resp.any fun t => decide (t.id = j)).isEmpty
          then db
          else deleteTweets db (ids.filter fun j => !resp.any fun t => decide (t.id = j)))
          resp true).2 = true := saveTweets_flag_of_clean _ resp true hclean
      rw [saveTweets_ok_tweets _ resp true hflag2]
      refine foldl_insertTweet_not_has true _ _ i ?_ hbase
      intro r hr
      obtain ⟨u, hu, rfl⟩ := List.mem_map.1 hr
      exact hno u (mem_of_mem_uniqueBy _ _ _ hu)
    · intro i t0 hfind
      have ht0p := List.find?_some hfind
      have ht0i : t0.id = i := by simpa using ht0p
      have ht0mem : t0 ∈ uniqueBy Status.id resp := by
        have := uniqueBy_find? Status.id resp i
        rw [hfind] at this
        exact List.mem_of_find?_eq_some this
      have hpw : ((uniqueBy Status.id resp).map tweetToRecord).Pairwise
          (fun a b => a.status_id ≠ b.status_id) := by
        rw [List.pairwise_map]
        exact uniqueBy_pairwise Status.id resp
      rw [hstep]
      unfold findTweet
      have hflag2 : (saveTweets (if (ids.filter fun j =>
            !resp.any fun t => decide (t.id = j)).isEmpty
          then db
          else deleteTweets db (ids.filter fun j => !resp.any fun t => decide (t.id = j)))
          resp true).2 = true := saveTweets_flag_of_clean _ resp true hclean
      rw [saveTweets_ok_tweets _ resp true hflag2]
      have := foldl_insert_find_covers ((uniqueBy Status.id resp).map tweetToRecord)
        (if (ids.filter fun j => !resp.any fun t => decide (t.id = j)).isEmpty
          then db
          else deleteTweets db (ids.filter fun j => !resp.any fun t => decide (t.id = j))).tweets
        hpw (tweetToRecord t0) (List.mem_map.2 ⟨t0, ht0mem, rfl⟩)
      rwa [show (tweetToRecord t0).status_id = i from ht0i] at this

/-- Witness for C7: batch of the two truncated ids 30 and 31; the re-fetch
returns only the full id 31, so 30 is deleted and 31 is overwritten with
the re-fetched payload. -/
theorem claim7_witness :
    (truncateBatchStep exDb7 [30, 31] [st31full]).2 = true ∧
    tblHasId ((truncateBatchStep exDb7 [30, 31] [st31full]).1).tweets 30 = false ∧
    findTweet (truncateBatchStep exDb7 [30, 31] [st31full]).1 31
      = some (tweetToRecord st31full) := by
  have hclean : ∀ t ∈ [st31full], t.badData = false ∧ t.user.badData = false := by decide
  have h := claim7_truncation_reconciliation exDb7 [30, 31] [st31full] hclean
  exact ⟨h.1, h.2.1 30 (by decide) (by decide), h.2.2 31 st31full (by rfl)⟩


/-- Counterexample to C8: the batch dedupe keeps the FIRST occurrence of a
key, not the last (`toolz.unique` yields first occurrences), so when two
records of one `save_users` call share an id, the record written is the
earlier one, contradicting last-occurrence wins. -/
theorem claim8_counterexample :
    u7a.id = u7b.id ∧ u7a ≠ u7b ∧
    (saveUsers emptyDb [u7a, u7b]).1.users = [⟨7, u7a⟩] := by
  refine ⟨rfl, by decide, by decide⟩

/-- C8 as amended: batch user and message upserts dedupe the input batch by
key with FIRST-occurrence wins before writing — the deduped batch has
pairwise distinct keys (so a single statement never carries two conflicting
writes for one key) and the record kept for a key is the first record of
the input carrying that key. -/
theorem claim8_amended (users : List TUser) (tweets : List Status) (i : Nat) :
    ((uniqueBy TUser.id users).Pairwise fun a b => a.id ≠ b.id) ∧
    ((uniqueBy Status.id tweets).Pairwise fun a b => a.id ≠ b.id) ∧
    (uniqueBy TUser.id users).find? (fun u => decide (u.id = i))
      = users.find? (fun u => decide (u.id = i)) ∧
    (uniqueBy Status.id tweets).find? (fun t => decide (t.id = i))
      = tweets.find? (fun t => decide (t.id = i)) :=
  ⟨uniqueBy_pairwise _ _, uniqueBy_pairwise _ _,
   uniqueBy_find? _ _ _, uniqueBy_find? _ _ _⟩

/-- Counterexample to C9: neither upsert performs a working per-record
fallback.  A message batch holding one malformed record fails as a whole
(`save_tweets` has no fallback path), so its well-formed record is not
persisted; a user batch holding one malformed record enters the fallback,
which raises an uncaught TypeError on its first record (the multi-row
VALUES template is re-issued through plain cursor.execute with a
two-element parameter tuple), so its well-formed record is not persisted
either and no discarded record is logged — contradicting the claim for
both record kinds. -/
theorem claim9_counterexample :
    stG.badData = false ∧
    (saveTweets emptyDb [stG, stB] false).2 = false ∧
    (saveTweets emptyDb [stG, stB] false).1.tweets = [] ∧
    uG.badData = false ∧
    saveUsers emptyDb [uG, badU] = (emptyDb, false) := by
  refine ⟨rfl, by decide, by decide, rfl, by decide⟩

/-- C9 as amended: a malformed record aborts its whole batch in both
upserts, with no effective per-record fallback.  A batch user upsert
containing a malformed record triggers the fallback path, but the
fallback re-issues the multi-row VALUES template through plain
cursor.execute with a two-element parameter tuple and raises an uncaught
TypeError before inserting anything, so the call leaves the store
unchanged, logs no per-record discard, and propagates.  A batch message
upsert containing a malformed record has no fallback at all: the whole
tweets statement fails, none of the batch's message rows is persisted and
the error propagates.  Only a fully well-formed user batch is persisted,
and then every deduped user of it is stored. -/
theorem claim9_amended (db : Db) (users : List TUser) (ts : List Status) (ow : Bool) :
    ((∃ u ∈ uniqueBy TUser.id users, u.badData = true) →
      saveUsers db users = (db, false)) ∧
    ((∃ t ∈ uniqueBy Status.id ts, t.badData = true) →
      (saveTweets db ts ow).2 = false ∧ (saveTweets db ts ow).1.tweets = db.tweets) ∧
    ((∀ u ∈ uniqueBy TUser.id users, u.badData = false) →
      (saveUsers db users).2 = true ∧
      ∀ u ∈ uniqueBy TUser.id users, userIdExists (saveUsers db users).1 u.id = true) := by
  refine ⟨?_, ?_, ?_⟩
  · rintro ⟨u, hu, hb⟩
    unfold saveUsers
    dsimp only
    rw [if_pos (List.any_eq_true.2 ⟨u, hu, hb⟩)]
  · rintro ⟨t, ht, hb⟩
    have hbad : (((uniqueBy Status.id ts).map tweetToRecord).any fun r => r.data.badData)
        = true := by
      refine List.any_eq_true.2 ⟨tweetToRecord t, List.mem_map.2 ⟨t, ht, rfl⟩, ?_⟩
      simpa [tweetToRecord] using hb
    have hflag : (saveTweets db ts ow).2 = false := by
      unfold saveTweets
      dsimp only
      split
      · simp [hbad]
      · rfl
    exact ⟨hflag, saveTweets_fail_tweets db ts ow hflag⟩
  · intro hall
    have hany : ((uniqueBy TUser.id users).any fun u => u.badData) = false := by
      rw [List.any_eq_false]
      intro u hu
      simp [hall u hu]
    have heq : saveUsers db users
        = ((uniqueBy TUser.id users).foldl insertUserIgnore db, true) := by
      unfold saveUsers
      dsimp only
      rw [if_neg (by simp [hany])]
    rw [heq]
    exact ⟨rfl, fun u hu => foldl_insertUserIgnore_covers _ db u hu⟩

/-- Witness for C9 (amended): a user batch with one malformed record is
lost whole (store unchanged, error propagated); a message batch with one
malformed record persists none of its rows; a fully well-formed user
batch persists its users. -/
theorem claim9_witness :
    saveUsers emptyDb [uG, badU] = (emptyDb, false) ∧
    (saveTweets emptyDb [stG, stB] false).2 = false ∧
    (saveTweets emptyDb [stG, stB] false).1.tweets = emptyDb.tweets ∧
    (saveUsers emptyDb [uG, uW]).2 = true ∧
    userIdExists (saveUsers emptyDb [uG, uW]).1 uG.id = true := by
  have h1 := claim9_amended emptyDb [uG, badU] [stG, stB] false
  have h2 := claim9_amended emptyDb [uG, uW] ([] : List Status) false
  refine ⟨h1.1 ⟨badU, by decide, rfl⟩, (h1.2.1 ⟨stB, by decide, rfl⟩).1,
    (h1.2.1 ⟨stB, by decide, rfl⟩).2, (h2.2.2 (by decide)).1,
    (h2.2.2 (by decide)).2 uG (by decide)⟩

/-- C2: for every account selected under the quota and each of its two
fetch phases, an upstream TwitterError raised during the phase is caught
and logged and aborts neither the rest of that account nor the run: the
run completes with a trace holding exactly both phase attempts, in order,
for every selected account, each marked with its own outcome (assuming no
response carries a tweet or author record whose insert would raise an
uncaught exception). -/
theorem claim2_phase_failure_isolated (o : FetchOracle) (now : ℚ) (quota : Nat)
    (ranked : List SN) (db : Db)
    (hclean : ∀ sn ∈ ranked.take quota, accountClean o sn) :
    ∃ db', runCollection o now quota ranked db =
      .ok (db', (ranked.take quota).flatMap fun sn =>
        [⟨pyNormalize sn, .get_replies, phaseOkB (o.replies (pyNormalize sn))⟩,
         ⟨pyNormalize sn, .get_ats, phaseOkB (o.ats (pyNormalize sn))⟩]) := by
  unfold runCollection
  exact collect_clean o now (ranked.take quota) db hclean

/-- Witness for C2: with two ranked accounts where the replies fetch of
the first raises a TwitterError, the run still completes, the failed phase
is traced with a false outcome, and the remaining phase and account are
still attempted. -/
theorem claim2_witness :
    (∀ sn ∈ ([[97], [98]] : List SN).take 2, accountClean exO2 sn) ∧
    ∃ db', runCollection exO2 0 2 [[97], [98]] emptyDb =
      .ok (db', [⟨[97], .get_replies, false⟩, ⟨[97], .get_ats, true⟩,
                 ⟨[98], .get_replies, true⟩, ⟨[98], .get_ats, true⟩]) := by
  have hn97 : pyNormalize [97] = [97] := by
    simp [pyNormalize, stripAt, lowerStr, pyLower]
  have hn98 : pyNormalize [98] = [98] := by
    simp [pyNormalize, stripAt, lowerStr, pyLower]
  have hc : ∀ sn ∈ ([[97], [98]] : List SN).take 2, accountClean exO2 sn := by
    intro sn hsn
    simp only [List.take, List.mem_cons, List.not_mem_nil, or_false] at hsn
    rcases hsn with rfl | rfl
    · constructor
      · rw [hn97]
        simp [exO2, respClean]
      · rw [hn97]
        simp [exO2, respClean]
    · constructor
      · rw [hn98]
        simp [exO2, respClean]
      · rw [hn98]
        simp [exO2, respClean]
  obtain ⟨db', hdb⟩ := claim2_phase_failure_isolated exO2 0 2 [[97], [98]] emptyDb hc
  refine ⟨hc, db', ?_⟩
  rw [hdb]
  simp [List.flatMap_cons, hn97, hn98, exO2, phaseOkB]

/-- C3: the Collection Orchestrator processes exactly the quota-truncated
prefix of the ranked list — min(Q, length) accounts — and, when every
phase of every selected account succeeds upstream, writes exactly one
FetchAttempt audit row per phase, two per account, whether or not the
fetched tweets were already stored (the audit rows are appended
unconditionally after each successful fetch, even for an empty new
subset). -/
theorem claim3_quota_and_audit (o : FetchOracle) (now : ℚ) (quota : Nat)
    (ranked : List SN) (db : Db)
    (hclean : ∀ sn ∈ ranked.take quota, accountClean o sn)
    (hok : ∀ sn ∈ ranked.take quota, phaseOkB (o.replies (pyNormalize sn)) = true ∧
      phaseOkB (o.ats (pyNormalize sn)) = true) :
    (ranked.take quota).length = min quota ranked.length ∧
    ∃ db' tr, runCollection o now quota ranked db = .ok (db', tr) ∧
      db'.requests.length = db.requests.length + 2 * (ranked.take quota).length := by
  refine ⟨by simpa using List.length_take quota ranked, ?_⟩
  obtain ⟨db', hrun⟩ := collect_clean o now (ranked.take quota) db hclean
  refine ⟨db', _, by unfold runCollection; exact hrun, ?_⟩
  exact collect_requests_len o now (ranked.take quota) db db' _ hrun hok

/-- Witness for C3: quota 2 over 5 ranked accounts, all phases succeeding,
against a store that already holds the single tweet the oracle returns (so
the first account's replies phase has an empty new subset): exactly 2
accounts are processed and exactly 4 audit rows are written. -/
theorem claim3_witness :
    (([[97], [98], [99], [100], [101]] : List SN).take 2).length = min 2 5 ∧
    ∃ db' tr, runCollection exO1 0 2 [[97], [98], [99], [100], [101]] exDbC3
        = .ok (db', tr) ∧
      db'.requests.length = exDbC3.requests.length + 4 := by
  have hns : ∀ sn ∈ ([[97], [98], [99], [100], [101]] : List SN).take 2,
      pyNormalize sn = sn := by
    intro sn hsn
    simp only [List.take, List.mem_cons, List.not_mem_nil, or_false] at hsn
    rcases hsn with rfl | rfl <;>
      simp [pyNormalize, stripAt, lowerStr, pyLower]
  have hc : ∀ sn ∈ ([[97], [98], [99], [100], [101]] : List SN).take 2,
      accountClean exO1 sn := by
    intro sn hsn
    have := hns sn hsn
    simp only [List.take, List.mem_cons, List.not_mem_nil, or_false] at hsn
    rcases hsn with rfl | rfl <;>
      constructor <;>
        simp [this, exO1, respClean, stW, uW]
  have hok : ∀ sn ∈ ([[97], [98], [99], [100], [101]] : List SN).take 2,
      phaseOkB (exO1.replies (pyNormalize sn)) = true ∧
      phaseOkB (exO1.ats (pyNormalize sn)) = true := by
    intro sn hsn
    have := hns sn hsn
    simp only [List.take, List.mem_cons, List.not_mem_nil, or_false] at hsn
    rcases hsn with rfl | rfl <;>
      constructor <;>
        simp [this, exO1, phaseOkB]
  have h := claim3_quota_and_audit exO1 0 2 [[97], [98], [99], [100], [101]] exDbC3 hc hok
  exact ⟨h.1, h.2⟩

/-- C10: every screen name the run works with is normalized — at-signs
stripped and lowercased — before use: each traced fetch call and each
appended audit row carries the normalization of a configured name; the
normalization is idempotent, invariant under an at-sign prefix, and
depends only on the lowercased text, so configured names differing only in
case or an at-sign prefix denote the same account. -/
theorem claim10_names_normalized (o : FetchOracle) (now : ℚ) (quota : Nat)
    (ranked : List SN) (db db' : Db) (tr : List TraceEv)
    (h : runCollection o now quota ranked db = .ok (db', tr)) :
    (∀ ev ∈ tr, ∃ sn ∈ ranked.take quota, ev.name = pyNormalize sn) ∧
    (∀ r ∈ db'.requests, r ∈ db.requests ∨
      ∃ sn ∈ ranked.take quota, r.screen_name = pyNormalize sn) ∧
    (∀ s, pyNormalize (pyNormalize s) = pyNormalize s) ∧
    (∀ s, pyNormalize (64 :: s) = pyNormalize s) ∧
    (∀ s t, lowerStr s = lowerStr t → pyNormalize s = pyNormalize t) := by
  unfold runCollection at h
  obtain ⟨h1, h2, -⟩ := collect_inv o now (ranked.take quota) db db' tr h
  exact ⟨h1, h2, pyNormalize_idem, pyNormalize_atSign, pyNormalize_congr_lower⟩

/-- C1: running the Collection Orchestrator a second time over the same
ranked list with the same unchanged upstream responses leaves the tweets
and users tables exactly as the first run left them, and a batch tweet
insert never changes the number of rows carrying an id that is already
present in the store (no duplicate rows from re-ingestion). -/
theorem claim1_idempotent_ingestion (o : FetchOracle) (now now2 : ℚ) (quota : Nat)
    (ranked : List SN) (db db1 : Db) (tr1 : List TraceEv)
    (h1 : runCollection o now quota ranked db = .ok (db1, tr1)) :
    (∃ db2 tr2, runCollection o now2 quota ranked db1 = .ok (db2, tr2) ∧
      db2.tweets = db1.tweets ∧ db2.users = db1.users) ∧
    (∀ (d : Db) (ts : List Status) (ow : Bool) (i : Nat),
      tweetIdExists d i = true →
      countId (saveTweets d ts ow).1.tweets i = countId d.tweets i) := by
  unfold runCollection at h1
  have hcov := collect_covered o now (ranked.take quota) db db1 tr1 h1
  obtain ⟨db2, tr2, hrun2, ht, hu⟩ := collect_idle o now2 (ranked.take quota) db1 hcov
  refine ⟨⟨db2, tr2, by unfold runCollection; exact hrun2, ht, hu⟩, ?_⟩
  exact fun d ts ow i hi => saveTweets_countId_of_present d ts ow i hi

/-- Witness for C1: a first run from the empty store ingests one tweet and
its author; a second run with the same oracle leaves both tables
unchanged. -/
theorem claim1_witness :
    runCollection exO1 0 1 [[97]] emptyDb = .ok (exDb1after,
      [⟨[97], .get_replies, true⟩, ⟨[97], .get_ats, true⟩]) ∧
    ∃ db2 tr2, runCollection exO1 0 1 [[97]] exDb1after = .ok (db2, tr2) ∧
      db2.tweets = exDb1after.tweets ∧ db2.users = exDb1after.users := by
  have heq : runCollection exO1 0 1 [[97]] emptyDb = .ok (exDb1after,
      [⟨[97], .get_replies, true⟩, ⟨[97], .get_ats, true⟩]) := by rfl
  exact ⟨heq, (claim1_idempotent_ingestion exO1 0 0 1 [[97]] emptyDb exDb1after _ heq).1⟩

/-- Witness for C10: a concrete successful run whose traced fetches and
audit rows all use normalized screen names. -/
theorem claim10_witness :
    runCollection exO1 0 1 [[64, 66]] emptyDb = .ok
      ({ tweets := [], users := [],
         requests := [⟨[98], .get_replies, 0⟩, ⟨[98], .get_ats, 0⟩], inaccessible := [] },
       [⟨[98], .get_replies, true⟩, ⟨[98], .get_ats, true⟩]) ∧
    (∀ ev ∈ [(⟨[98], .get_replies, true⟩ : TraceEv), ⟨[98], .get_ats, true⟩],
      ∃ sn ∈ ([[64, 66]] : List SN).take 1, ev.name = pyNormalize sn) := by
  have heq : runCollection exO1 0 1 [[64, 66]] emptyDb = .ok
      ({ tweets := [], users := [],
         requests := [⟨[98], .get_replies, 0⟩, ⟨[98], .get_ats, 0⟩], inaccessible := [] },
       [⟨[98], .get_replies, true⟩, ⟨[98], .get_ats, true⟩]) := by rfl
  exact ⟨heq, (claim10_names_normalized exO1 0 1 [[64, 66]] emptyDb _ _ heq).1⟩


/-- Counterexample to C4: the code's weight is
abs(scrape_age * tweet_count / (tweet_period + 0.0001)) with NO floor of
1.0 on the rate.  Account x (code point 120, scrape age 10 days, 2 tweets
over 5 days, rate two fifths) gets code weight about 4 but spec weight
10 * max(2/5, 1) = 10; account y (code point 121, scrape age 3 days, 2
tweets over 1 day, rate about 2) gets code weight and spec weight about 6.
The code therefore ranks y before x even though the spec weight of x
exceeds the spec weight of y, so the output is not sorted by the spec's
clamped weight. -/
theorem claim4_counterexample :
    prioritizeByUncollected exNow4 exDb4 [[120], [121], [122]] = [[121], [120], [122]] ∧
    scoreRows exNow4 exDb4 = [⟨[120], some (200000 / 50001)⟩, ⟨[121], some (60000 / 10001)⟩,
      ⟨[122], some 0⟩] ∧
    specPriorityWeight 3 2 < specPriorityWeight 10 (2 / 5) := by
  refine ⟨?_, ?_, ?_⟩
  · norm_num [prioritizeByUncollected, scoredNames, scoreRows, requestSNs, maxRequestAt,
      dailyCountFor, windowTweets, dailyKey, lowerStr, pyLower, uniqueBy, exDb4, exNow4, dayQ,
      mkTw, uX, uY, uZ, List.insertionSort, List.orderedInsert, scoreBefore, List.max?,
      List.min?, abs_of_nonneg]
  · norm_num [scoreRows, requestSNs, maxRequestAt, dailyCountFor, windowTweets, dailyKey,
      lowerStr, pyLower, uniqueBy, exDb4, exNow4, dayQ, mkTw, uX, uY, uZ, List.max?, List.min?,
      abs_of_nonneg]
  · rw [specPriorityWeight, specPriorityWeight,
        max_eq_left (by norm_num), max_eq_right (by norm_num)]
    norm_num

/-- C4 as amended: the Priority Scorer ranks the screen names with fetch
history by the weight abs(scrape_age * tweet_count / (tweet_period +
0.0001)) in descending order — no 1.0 floor is applied to the rate — with
a NULL weight (fetch history but no tweet in the trailing window) sorting
before every numeric weight; the ranked rows are a permutation of the
joined query rows and the scored name list is their projection. -/
theorem claim4_amended (now : ℚ) (db : Db) :
    List.Sorted scoreBefore ((scoreRows now db).insertionSort scoreBefore) ∧
    ((scoreRows now db).insertionSort scoreBefore).Perm (scoreRows now db) ∧
    scoredNames now db = ((scoreRows now db).insertionSort scoreBefore).map fun r => r.sn :=
  ⟨List.sorted_insertionSort scoreBefore _, List.perm_insertionSort scoreBefore _, rfl⟩

/-- Counterexample to C5: with one scored account a (code point 97) and
one unknown account b (code point 98), the returned ranking is [b, a] —
the names absent from the scorer result are PREPENDED before the scored
names, not appended after them as the claim states. -/
theorem claim5_counterexample :
    prioritizeByUncollected 0 exDb5 [[98], [97]] = [[98], [97]] ∧
    scoredNames 0 exDb5 = [[97]] ∧
    prioritizeByUncollected 0 exDb5 [[98], [97]] ≠
      scoredNames 0 exDb5 ++ (([[98], [97]] : List SN).filter fun sn =>
        !(scoredNames 0 exDb5).any fun t => decide (t = sn)) := by
  have hscored : scoredNames 0 exDb5 = [[97]] := by
    norm_num [scoredNames, scoreRows, requestSNs, maxRequestAt, dailyCountFor, windowTweets,
      dailyKey, lowerStr, pyLower, uniqueBy, exDb5, List.insertionSort, List.orderedInsert,
      scoreBefore, List.max?, List.min?]
  have hmain : prioritizeByUncollected 0 exDb5 [[98], [97]] = [[98], [97]] := by
    rw [prioritizeByUncollected, hscored]
    simp
  refine ⟨hmain, hscored, ?_⟩
  rw [hmain, hscored]
  simp

/-- C5 as amended: the accounts absent from the scorer's result set appear
in the returned ranking BEFORE all scored accounts, in their original
input order: the output is exactly the input-order filter of unscored
names followed by the scored names, and in particular every unscored input
name does appear in the output. -/
theorem claim5_amended (now : ℚ) (db : Db) (names : List SN) :
    prioritizeByUncollected now db names =
      (names.filter fun sn => !(scoredNames now db).any fun t => decide (t = sn))
        ++ scoredNames now db ∧
    (∀ sn ∈ names, sn ∉ scoredNames now db → sn ∈ prioritizeByUncollected now db names) := by
  refine ⟨rfl, ?_⟩
  intro sn hsn hnot
  unfold prioritizeByUncollected
  refine List.mem_append.2 (Or.inl (List.mem_filter.2 ⟨hsn, ?_⟩))
  have hany : ((scoredNames now db).any fun t => decide (t = sn)) = false := by
    rw [List.any_eq_false]
    intro x hx
    simp only [decide_eq_true_eq]
    intro he
    exact hnot (he ▸ hx)
  simp [hany]

/-- Witness for C5 (amended): the unscored configured name b appears in
the ranking computed over a store that scores only a. -/
theorem claim5_witness :
    ([98] : SN) ∈ ([[98], [97]] : List SN) ∧ ([98] : SN) ∉ scoredNames 0 exDb5 ∧
    ([98] : SN) ∈ prioritizeByUncollected 0 exDb5 [[98], [97]] := by
  have hscored : scoredNames 0 exDb5 = [[97]] := by
    norm_num [scoredNames, scoreRows, requestSNs, maxRequestAt, dailyCountFor, windowTweets,
      dailyKey, lowerStr, pyLower, uniqueBy, exDb5, List.insertionSort, List.orderedInsert,
      scoreBefore, List.max?, List.min?]
  have hnot : ([98] : SN) ∉ scoredNames 0 exDb5 := by
    rw [hscored]
    simp
  exact ⟨by simp, hnot,
    (claim5_amended 0 exDb5 [[98], [97]]).2 [98] (by simp) hnot⟩

end TwitterCS
